import Mathlib

/-!
A verification development for the Accumulated Local Effects (ALE)
computation engine of the `alibi` explanation library.  The repository
ships only caller notebooks, so the engine itself is modelled from the
specification: quantile binning, local finite-difference estimation,
accumulation, trapezoidal-midpoint centering, multi-feature
orchestration and explanation building, with the documented error
taxonomy.  Rational numbers stand in for floating-point values, so
"within floating tolerance" statements become exact equalities.
-/

namespace AleSpec

/-- A data matrix: a list of instance rows, each a list of rational feature values. -/
abbrev Mat := List (List ℚ)

/-- Modelled from the spec: the error taxonomy of section 7
(DegenerateFeatureError, InvalidFeatureError, PredictorError, ShapeMismatchError). -/
inductive ErrKind
  | degenerateFeature
  | invalidFeature
  | predictorError
  | shapeMismatch
  deriving DecidableEq, Repr

/-- Modelled from the spec: an error surfaced by the engine, tagged with the
offending feature index (and the bin index for predictor failures). -/
structure AleError where
  kind : ErrKind
  feature : Nat
  binCtx : Option Nat
  deriving DecidableEq, Repr

/-- Modelled from the spec: a predictor may return an (n, m) matrix, or a
one-dimensional vector of per-instance outputs (the shape produced by
scikit-learn regressors). -/
inductive PredOut
  | vec : List ℚ → PredOut
  | mat : Mat → PredOut

/-- A predictor is an opaque callable from a batch matrix to predictions. -/
abbrev Predictor := Mat → PredOut

/-- A one-dimensional predictor output is treated as a single-target column matrix. -/
def PredOut.toMatrix : PredOut → Mat
  | .vec v => v.map (fun y => [y])
  | .mat rows => rows

/-! ### Vector helpers (rows are per-target value lists) -/

/-- Componentwise sum of two rows. -/
def vadd (a b : List ℚ) : List ℚ := List.zipWith (· + ·) a b

/-- Componentwise difference of two rows. -/
def vsub (a b : List ℚ) : List ℚ := List.zipWith (· - ·) a b

/-- Scalar multiple of a row. -/
def vscale (c : ℚ) (a : List ℚ) : List ℚ := a.map (fun x => c * x)

/-- Sum of a list of rows, of target dimension m. -/
def msum (m : Nat) (rows : Mat) : List ℚ := rows.foldr vadd (List.replicate m 0)

/-- Weighted sum of a list of scalars. -/
def wsum (w xs : List ℚ) : ℚ := (List.zipWith (· * ·) w xs).sum

/-- Midpoints of consecutive entries of a scalar sequence. -/
def midcol (xs : List ℚ) : List ℚ := List.zipWith (fun a b => (a + b) / 2) xs xs.tail

/-- Inner product of a weight row with a data row. -/
def dot (w r : List ℚ) : ℚ := (List.zipWith (· * ·) w r).sum

/-! ### QuantileBinner -/

/-- The feature column sorted ascending. -/
def sortedColumn (vals : List ℚ) : List ℚ := List.insertionSort (· ≤ ·) vals

/-- Modelled from the spec: index into the sorted column of the j-th of
`res` equal-frequency quantile cut points over n observations; the
empirical (order-statistic) quantile at probability j/res, so that cut 0
is the minimum and cut res is the maximum. -/
def cutPos (n res j : Nat) : Nat := max 1 ((j * n + res - 1) / res) - 1

/-- Modelled from the spec: the `res + 1` quantile cut points over the sorted
column, inclusive of min and max. -/
def rawQuantiles (s : List ℚ) (res : Nat) : List ℚ :=
  (List.range (res + 1)).map (fun j => s.getD (cutPos s.length res j) 0)

/-- Modelled from the spec: quantile bin edges with duplicate quantile values
merged, yielding at most `res` bins. -/
def quantileEdges (vals : List ℚ) (res : Nat) : List ℚ :=
  (rawQuantiles (sortedColumn vals) res).dedup

/-- Modelled from the spec, section 4.1: derive bin edges for one feature;
a feature with fewer than 2 unique values signals DegenerateFeatureError. -/
def bins (featIdx : Nat) (vals : List ℚ) (res : Nat) : Except AleError (List ℚ) :=
  if vals.dedup.length < 2 then .error ⟨.degenerateFeature, featIdx, none⟩
  else .ok (quantileEdges vals res)

/-! ### LocalEffectEstimator -/

/-- Modelled from the spec, section 4.2: the bin an instance value is assigned
to.  An instance on an edge belongs to the lower-indexed bin and the final bin
is closed on both ends, so the index is the number of non-leading edges
strictly below the value. -/
def binIndex (edges : List ℚ) (x : ℚ) : Nat :=
  edges.tail.countP (fun e => decide (e < x))

/-- The i-th feature column of a matrix. -/
def column (X : Mat) (i : Nat) : List ℚ := X.map (fun r => r.getD i 0)

/-- Arithmetic mean of the i-th feature column. -/
def columnMean (X : Mat) (i : Nat) : ℚ := (column X i).sum / ((column X i).length : ℚ)

/-- The instances whose i-th feature falls in bin k. -/
def instancesInBin (X : Mat) (i : Nat) (edges : List ℚ) (k : Nat) : Mat :=
  X.filter (fun r => decide (binIndex edges (r.getD i 0) = k))

/-- A row with feature i clamped to the value v. -/
def clampRow (r : List ℚ) (i : Nat) (v : ℚ) : List ℚ := r.set i v

/-- Modelled from the spec, section 4.2: the local effect of one bin.  The
instances of the bin are clamped to the lower and upper edge, the predictor is
evaluated once on the concatenation of both batches, and the per-instance
upper-minus-lower differences are averaged per target.  An empty bin
contributes a zero effect (no division by zero); an output of unexpected shape
is a PredictorError tagged with feature and bin. -/
def localEffectBin (X : Mat) (i : Nat) (edges : List ℚ) (p : Predictor) (m : Nat)
    (k : Nat) : Except AleError (List ℚ) :=
  let rows := instancesInBin X i edges k
  if rows.isEmpty then .ok (List.replicate m 0)
  else
    let lower := rows.map (fun r => clampRow r i (edges.getD k 0))
    let upper := rows.map (fun r => clampRow r i (edges.getD (k + 1) 0))
    let out := (p (lower ++ upper)).toMatrix
    if out.length = rows.length + rows.length ∧ ∀ row ∈ out, row.length = m then
      .ok (vscale (1 / (rows.length : ℚ))
        (msum m (List.zipWith vsub (out.drop rows.length) (out.take rows.length))))
    else .error ⟨.predictorError, i, some k⟩

/-- Fail-fast sequencing of a list of fallible computations: the first error
aborts the whole traversal. -/
def collectExcept {α β : Type} (f : α → Except AleError β) : List α → Except AleError (List β)
  | [] => .ok []
  | a :: rest =>
    match f a with
    | .error e => .error e
    | .ok b =>
      match collectExcept f rest with
      | .error e => .error e
      | .ok bs => .ok (b :: bs)

/-- Modelled from the spec, section 4.2: the (K, m) matrix of per-bin local
effects. -/
def localEffects (X : Mat) (i : Nat) (edges : List ℚ) (p : Predictor) (m : Nat) :
    Except AleError Mat :=
  collectExcept (localEffectBin X i edges p m) (List.range (edges.length - 1))

/-! ### Accumulator -/

/-- Running cumulative sums of rows starting from an initial row. -/
def accumFrom (acc : List ℚ) : Mat → Mat
  | [] => [acc]
  | r :: rest => acc :: accumFrom (vadd acc r) rest

/-- Modelled from the spec, section 4.3: running cumulative sum of the local
effects with a leading zero row; a (K, m) input yields a (K+1, m) output. -/
def accumulate (m : Nat) (le : Mat) : Mat := accumFrom (List.replicate m 0) le

/-! ### Centerer -/

/-- Trapezoidal midpoints of consecutive accumulated rows. -/
def midpoints (ale : Mat) : Mat :=
  List.zipWith (fun a b => vscale (1 / 2) (vadd a b)) ale ale.tail

/-- Modelled from the spec, section 4.4: the weighted average of the
trapezoidal midpoint rows, weighted by bin occupancy. -/
def trapMean (ale : Mat) (w : List ℚ) (m : Nat) : List ℚ :=
  vscale (1 / w.sum) (msum m (List.zipWith (fun wk mid => vscale wk mid) w (midpoints ale)))

/-- Modelled from the spec, section 4.4: subtract the weighted trapezoidal
midpoint average from every accumulated row. -/
def center (ale : Mat) (w : List ℚ) (m : Nat) : Mat :=
  ale.map (fun r => vsub r (trapMean ale w m))

/-- Modelled from the spec, section 4.4: bin_weights[k] is the fraction of
instances whose feature value falls in bin k. -/
def binWeights (X : Mat) (i : Nat) (edges : List ℚ) : List ℚ :=
  (List.range (edges.length - 1)).map
    (fun k => ((instancesInBin X i edges k).length : ℚ) / (X.length : ℚ))

/-- The bin-weighted mean of a scalar curve under trapezoidal midpoint
weighting: the quantity the centering guarantee says is zero. -/
def weightedTrapMean (w vals : List ℚ) : ℚ := wsum w (midcol vals) / w.sum

/-! ### Orchestrator and builder -/

/-- Modelled from the spec: decile markers, the 10 equal-frequency boundary
values of the feature's marginal distribution, kept for diagnostics. -/
def featureDecilesOf (vals : List ℚ) : List ℚ :=
  (List.range 10).map (fun j => (sortedColumn vals).getD (cutPos vals.length 10 (j + 1)) 0)

/-- Whether some bin of the feature received zero instances (the condition of
the non-fatal LowDensityWarning). -/
def hasEmptyBin (X : Mat) (i : Nat) (edges : List ℚ) : Bool :=
  (List.range (edges.length - 1)).any (fun k => (instancesInBin X i edges k).isEmpty)

/-- Modelled from the spec, section 6: the explainer configuration; resolution
is a positive int (default 10), numTargets the predictor output dimension m,
numFeatures the length of the configured feature names. -/
structure AleConfig where
  resolution : Nat
  numTargets : Nat
  numFeatures : Nat
  lowDensityWarn : Bool
  deriving DecidableEq, Repr

/-- The per-feature intermediate result handed to the builder. -/
structure FeatureResult where
  feature : Nat
  edges : List ℚ
  centered : Mat
  deciles : List ℚ
  lowDensity : Bool
  deriving DecidableEq, Repr

/-- Modelled from the spec, section 4.5: run Binner, Estimator, Accumulator
and Centerer for one feature; a feature index out of range is an
InvalidFeatureError. -/
def explainFeature (cfg : AleConfig) (X : Mat) (p : Predictor) (i : Nat) :
    Except AleError FeatureResult :=
  if i < cfg.numFeatures then
    match bins i (column X i) cfg.resolution with
    | .error e => .error e
    | .ok edges =>
      match localEffects X i edges p cfg.numTargets with
      | .error e => .error e
      | .ok le =>
        .ok ⟨i, edges,
          center (accumulate cfg.numTargets le) (binWeights X i edges) cfg.numTargets,
          featureDecilesOf (column X i), hasEmptyBin X i edges⟩
  else .error ⟨.invalidFeature, i, none⟩

/-- Modelled from the spec, sections 3 and 6: the immutable result value.
ale_values holds, per feature, one array per target, aligned with the bin
edges in feature_values; lowDensityFeatures annotates features that triggered
the non-fatal LowDensityWarning. -/
structure Explanation where
  features : List Nat
  featureValues : List (List ℚ)
  aleValues : List Mat
  featureDeciles : List (List ℚ)
  lowDensityFeatures : List Nat
  deriving DecidableEq, Repr

/-- The per-target columns of a (K+1, m) centered matrix. -/
def targetColumns (m : Nat) (rows : Mat) : Mat :=
  (List.range m).map (fun t => rows.map (fun r => r.getD t 0))

/-- Modelled from the spec, section 4.6: assemble per-feature results into one
Explanation, enforcing that feature_values and ale_values have matching
lengths for every feature; a mismatch is a fatal ShapeMismatchError. -/
def buildExplanation (cfg : AleConfig) (results : List FeatureResult) :
    Except AleError Explanation :=
  if results.all (fun r => r.edges.length == r.centered.length) then
    .ok ⟨results.map (fun r => r.feature),
      results.map (fun r => r.edges),
      results.map (fun r => targetColumns cfg.numTargets r.centered),
      results.map (fun r => r.deciles),
      if cfg.lowDensityWarn then (results.filter (fun r => r.lowDensity)).map (fun r => r.feature)
      else []⟩
  else
    .error ⟨.shapeMismatch,
      (((results.find? (fun r => !(r.edges.length == r.centered.length))).map
        (fun r => r.feature)).getD 0), none⟩

/-- Modelled from the spec, sections 4.5 and 7: the public entry point.  An
input matrix whose column count disagrees with the configured feature count is
a ShapeMismatchError; otherwise the per-feature pipelines run fail-fast over
the requested feature subset (all features when none is given) and the results
are assembled by the builder. -/
def explain (cfg : AleConfig) (X : Mat) (p : Predictor) (subset : Option (List Nat)) :
    Except AleError Explanation :=
  if X.all (fun r => r.length == cfg.numFeatures) then
    match collectExcept (explainFeature cfg X p) (subset.getD (List.range cfg.numFeatures)) with
    | .error e => .error e
    | .ok results => buildExplanation cfg results
  else .error ⟨.shapeMismatch, 0, none⟩

/-- An Explanation with its low-density annotations removed (the payload that
must not depend on the warning flag). -/
def stripLowDensity (e : Explanation) : Explanation :=
  ⟨e.features, e.featureValues, e.aleValues, e.featureDeciles, []⟩

/-- A linear predictor f(x) = w · x, as a single-target matrix predictor. -/
def linPred (w : List ℚ) : Predictor := fun b => PredOut.mat (b.map (fun r => [dot w r]))

/-- A predictor returning a one-dimensional output vector, as scikit-learn
regressors do. -/
def vecPred (q : Mat → List ℚ) : Predictor := fun b => PredOut.vec (q b)

/-! ### Generic list lemmas -/

theorem getD_map {α β : Type} (f : α → β) (dα : α) (dβ : β) :
    ∀ (l : List α) (i : Nat), i < l.length → (l.map f).getD i dβ = f (l.getD i dα)
  | _ :: _, 0, _ => rfl
  | _ :: l, i + 1, h => getD_map f dα dβ l i (Nat.lt_of_succ_lt_succ h)

theorem getD_zipWith {α β γ : Type} (f : α → β → γ) (dα : α) (dβ : β) (dγ : γ) :
    ∀ (a : List α) (b : List β) (i : Nat), i < a.length → i < b.length →
      (List.zipWith f a b).getD i dγ = f (a.getD i dα) (b.getD i dβ)
  | _ :: _, _ :: _, 0, _, _ => rfl
  | _ :: a, _ :: b, i + 1, ha, hb =>
    getD_zipWith f dα dβ dγ a b i (Nat.lt_of_succ_lt_succ ha) (Nat.lt_of_succ_lt_succ hb)
  | [], _, _, ha, _ => absurd ha (by simp)
  | _ :: _, [], _, _, hb => absurd hb (by simp)

theorem getD_mem {α : Type} (l : List α) (d : α) (i : Nat) (h : i < l.length) :
    l.getD i d ∈ l := by
  rw [List.getD_eq_getElem l d h]
  exact List.getElem_mem h

theorem getD_range (n i : Nat) (h : i < n) : (List.range n).getD i 0 = i := by
  rw [List.getD_eq_getElem _ _ (by simpa using h)]
  exact List.getElem_range i _

theorem getD_tail {α : Type} (l : List α) (d : α) (i : Nat) (hl : l ≠ []) :
    l.tail.getD i d = l.getD (i + 1) d := by
  cases l with
  | nil => exact absurd rfl hl
  | cons a t => rfl

theorem getD_replicate (m i : Nat) (h : i < m) : (List.replicate m (0 : ℚ)).getD i 0 = 0 := by
  rw [List.getD_eq_getElem _ _ (by simpa using h)]
  simp

theorem mem_zipWith_elim {α β γ : Type} (f : α → β → γ) :
    ∀ (a : List α) (b : List β) (c : γ), c ∈ List.zipWith f a b →
      ∃ x y, x ∈ a ∧ y ∈ b ∧ c = f x y
  := by
  intro a b c h
  induction a generalizing b with
  | nil => simp at h
  | cons x a ih =>
    cases b with
    | nil => simp at h
    | cons y b =>
      rw [List.zipWith_cons_cons] at h
      rcases List.mem_cons.mp h with rfl | h
      · exact ⟨x, y, List.mem_cons_self _ _, List.mem_cons_self _ _, rfl⟩
      · rcases ih b h with ⟨x', y', hx, hy, hc⟩
        exact ⟨x', y', List.mem_cons_of_mem _ hx, List.mem_cons_of_mem _ hy, hc⟩

theorem zipWith_map_same {α β γ δ : Type} (f : α → β) (g : α → γ) (h : β → γ → δ) :
    ∀ l : List α, List.zipWith h (l.map f) (l.map g) = l.map (fun a => h (f a) (g a))
  | [] => rfl
  | a :: l => by
    simp only [List.map_cons, List.zipWith_cons_cons, zipWith_map_same f g h l]

theorem sorted_getD_le (l : List ℚ) (h : l.Sorted (· ≤ ·)) (i j : Nat) (hij : i ≤ j)
    (hj : j < l.length) : l.getD i 0 ≤ l.getD j 0 := by
  rcases Nat.lt_or_ge i j with hlt | hge
  · rw [List.getD_eq_getElem _ _ (Nat.lt_trans hlt hj), List.getD_eq_getElem _ _ hj]
    exact h.rel_get_of_lt hlt
  · have : i = j := Nat.le_antisymm hij hge
    subst this
    exact le_refl _

theorem sorted_head_le_mem (l : List ℚ) (h : l.Sorted (· ≤ ·)) (x : ℚ) (hx : x ∈ l) :
    l.getD 0 0 ≤ x := by
  rcases List.mem_iff_getElem.mp hx with ⟨i, hi, rfl⟩
  rw [← List.getD_eq_getElem l 0 hi]
  exact sorted_getD_le l h 0 i (Nat.zero_le _) hi

theorem sorted_mem_le_last (l : List ℚ) (h : l.Sorted (· ≤ ·)) (x : ℚ) (hx : x ∈ l) :
    x ≤ l.getD (l.length - 1) 0 := by
  rcases List.mem_iff_getElem.mp hx with ⟨i, hi, rfl⟩
  rw [← List.getD_eq_getElem l 0 hi]
  exact sorted_getD_le l h i (l.length - 1) (Nat.le_sub_one_of_lt hi)
    (Nat.sub_lt (Nat.lt_of_le_of_lt (Nat.zero_le i) hi) Nat.one_pos)

theorem sorted_dedup_strict (l : List ℚ) (h : l.Sorted (· ≤ ·)) :
    l.dedup.Sorted (· < ·) := by
  have hle : l.dedup.Pairwise (· ≤ ·) := List.Pairwise.sublist (List.dedup_sublist l) h
  have hne : l.dedup.Pairwise (· ≠ ·) := List.nodup_dedup l
  exact (hle.and hne).imp (fun hab => lt_of_le_of_ne hab.1 hab.2)

theorem strict_sorted_getD_lt (l : List ℚ) (h : l.Sorted (· < ·)) (i j : Nat) (hij : i < j)
    (hj : j < l.length) : l.getD i 0 < l.getD j 0 := by
  rw [List.getD_eq_getElem _ _ (Nat.lt_trans hij hj), List.getD_eq_getElem _ _ hj]
  exact h.rel_get_of_lt hij

/-! ### Row-arithmetic lemmas -/

theorem length_vadd (a b : List ℚ) : (vadd a b).length = min a.length b.length :=
  List.length_zipWith _ _ _

theorem length_vsub (a b : List ℚ) : (vsub a b).length = min a.length b.length :=
  List.length_zipWith _ _ _

theorem length_vscale (c : ℚ) (a : List ℚ) : (vscale c a).length = a.length :=
  List.length_map _ _

theorem getD_vadd (a b : List ℚ) (i : Nat) (ha : i < a.length) (hb : i < b.length) :
    (vadd a b).getD i 0 = a.getD i 0 + b.getD i 0 :=
  getD_zipWith _ 0 0 0 a b i ha hb

theorem getD_vsub (a b : List ℚ) (i : Nat) (ha : i < a.length) (hb : i < b.length) :
    (vsub a b).getD i 0 = a.getD i 0 - b.getD i 0 :=
  getD_zipWith _ 0 0 0 a b i ha hb

theorem getD_vscale (c : ℚ) (a : List ℚ) (i : Nat) (ha : i < a.length) :
    (vscale c a).getD i 0 = c * a.getD i 0 :=
  getD_map _ 0 0 a i ha

theorem length_msum (m : Nat) (rows : Mat) (h : ∀ r ∈ rows, r.length = m) :
    (msum m rows).length = m := by
  induction rows with
  | nil => simp [msum]
  | cons r rows ih =>
    have hr : r.length = m := h r (List.mem_cons_self _ _)
    have ih' := ih (fun r' hr' => h r' (List.mem_cons_of_mem _ hr'))
    show (vadd r (msum m rows)).length = m
    rw [length_vadd, hr, ih', Nat.min_self]

theorem getD_msum (m : Nat) (rows : Mat) (t : Nat) (ht : t < m)
    (h : ∀ r ∈ rows, r.length = m) :
    (msum m rows).getD t 0 = (rows.map (fun r => r.getD t 0)).sum := by
  induction rows with
  | nil =>
    show (List.replicate m (0 : ℚ)).getD t 0 = ([] : List ℚ).sum
    rw [getD_replicate m t ht, List.sum_nil]
  | cons r rows ih =>
    have hr : r.length = m := h r (List.mem_cons_self _ _)
    have h' : ∀ r' ∈ rows, r'.length = m := fun r' hr' => h r' (List.mem_cons_of_mem _ hr')
    have hlen : t < (msum m rows).length := by rw [length_msum m rows h']; exact ht
    show (vadd r (msum m rows)).getD t 0 = _
    rw [getD_vadd r _ t (by rw [hr]; exact ht) hlen, ih h']
    simp

theorem vadd_vscale_nat (n : Nat) (v : List ℚ) :
    vadd v (vscale (n : ℚ) v) = vscale ((n : ℚ) + 1) v := by
  induction v with
  | nil => rfl
  | cons y v ih =>
    show (y + n * y) :: vadd v (vscale (n : ℚ) v) = ((n : ℚ) + 1) * y :: vscale _ v
    rw [ih]
    congr 1
    ring

theorem vscale_zero_eq_replicate (v : List ℚ) :
    vscale 0 v = List.replicate v.length 0 := by
  induction v with
  | nil => rfl
  | cons y v ih =>
    show (0 * y) :: vscale 0 v = 0 :: List.replicate v.length 0
    rw [ih, zero_mul]

theorem msum_const (m : Nat) {α : Type} (l : List α) (v : List ℚ) (hv : v.length = m) :
    msum m (l.map (fun _ => v)) = vscale (l.length : ℚ) v := by
  induction l with
  | nil =>
    show List.replicate m 0 = vscale ((0 : Nat) : ℚ) v
    rw [Nat.cast_zero, vscale_zero_eq_replicate, hv]
  | cons a l ih =>
    show vadd v (msum m (l.map (fun _ => v))) = _
    rw [ih, vadd_vscale_nat]
    congr 1
    rw [List.length_cons]
    push_cast
    ring

theorem vscale_vscale (a b : ℚ) (v : List ℚ) : vscale a (vscale b v) = vscale (a * b) v := by
  simp only [vscale, List.map_map]
  apply List.map_congr_left
  intro x _
  simp [mul_assoc]

theorem vscale_one (v : List ℚ) : vscale 1 v = v := by
  simp [vscale]

/-! ### Accumulator lemmas -/

theorem accumFrom_length : ∀ (le : Mat) (acc : List ℚ),
    (accumFrom acc le).length = le.length + 1
  | [], _ => rfl
  | r :: rest, acc => by
    show (accumFrom (vadd acc r) rest).length + 1 = rest.length + 1 + 1
    rw [accumFrom_length rest (vadd acc r)]

theorem accumFrom_getD_zero (le : Mat) (acc : List ℚ) :
    (accumFrom acc le).getD 0 [] = acc := by
  cases le <;> rfl

theorem accumFrom_getD_succ : ∀ (le : Mat) (acc : List ℚ) (k : Nat), k < le.length →
    (accumFrom acc le).getD (k + 1) [] =
      vadd ((accumFrom acc le).getD k []) (le.getD k [])
  | r :: rest, acc, 0, _ => by
    show (accumFrom (vadd acc r) rest).getD 0 [] = vadd acc r
    exact accumFrom_getD_zero rest (vadd acc r)
  | r :: rest, acc, k + 1, h => by
    show (accumFrom (vadd acc r) rest).getD (k + 1) [] =
      vadd ((accumFrom (vadd acc r) rest).getD k []) (rest.getD k [])
    exact accumFrom_getD_succ rest (vadd acc r) k (Nat.lt_of_succ_lt_succ h)

theorem accumFrom_rows_length (m : Nat) :
    ∀ (le : Mat) (acc : List ℚ), acc.length = m → (∀ r ∈ le, r.length = m) →
      ∀ r' ∈ accumFrom acc le, r'.length = m
  | [], acc, hacc, _, r', hr' => by
    rcases List.mem_singleton.mp hr' with rfl
    exact hacc
  | r :: rest, acc, hacc, hle, r', hr' => by
    rcases List.mem_cons.mp hr' with rfl | hr'
    · exact hacc
    · refine accumFrom_rows_length m rest (vadd acc r) ?_ ?_ r' hr'
      · rw [length_vadd, hacc, hle r (List.mem_cons_self _ _), Nat.min_self]
      · exact fun x hx => hle x (List.mem_cons_of_mem _ hx)

/-! ### Scalar centering lemmas -/

theorem midcol_cons_cons (a b : ℚ) (t : List ℚ) :
    midcol (a :: b :: t) = (a + b) / 2 :: midcol (b :: t) := rfl

theorem length_midcol (xs : List ℚ) : (midcol xs).length = xs.length - 1 := by
  show (List.zipWith _ xs xs.tail).length = xs.length - 1
  rw [List.length_zipWith, List.length_tail]
  exact Nat.min_eq_right (Nat.sub_le _ _)

theorem midcol_map_sub (c : ℚ) : ∀ xs : List ℚ,
    midcol (xs.map (fun v => v - c)) = (midcol xs).map (fun v => v - c)
  | [] => rfl
  | [_] => rfl
  | a :: b :: t => by
    show midcol ((a - c) :: (b - c) :: (b :: t).tail.map (fun v => v - c)) = _
    rw [midcol_cons_cons]
    show _ = ((a + b) / 2 - c) :: (midcol (b :: t)).map (fun v => v - c)
    rw [← midcol_map_sub c (b :: t)]
    show ((a - c) + (b - c)) / 2 :: _ = _ :: _
    congr 1
    ring

theorem wsum_map_sub (c : ℚ) : ∀ (w xs : List ℚ), w.length = xs.length →
    wsum w (xs.map (fun v => v - c)) = wsum w xs - w.sum * c
  | [], [], _ => by simp [wsum]
  | wk :: w, x :: xs, h => by
    have h' : w.length = xs.length := Nat.succ_injective h
    show (List.zipWith _ (wk :: w) ((x - c) :: _)).sum = _
    rw [List.zipWith_cons_cons, List.sum_cons]
    have ih := wsum_map_sub c w xs h'
    show wk * (x - c) + wsum w (xs.map (fun v => v - c)) = wsum (wk :: w) (x :: xs) - (wk :: w).sum * c
    rw [ih]
    show _ = (List.zipWith _ (wk :: w) (x :: xs)).sum - (wk + w.sum) * c
    rw [List.zipWith_cons_cons, List.sum_cons]
    show _ = wk * x + wsum w xs - (wk + w.sum) * c
    ring
  | [], _ :: _, h => by simp at h
  | _ :: _, [], h => by simp at h

theorem scalar_center_zero (w col : List ℚ) (hw : w.length + 1 = col.length)
    (hsum : w.sum ≠ 0) :
    weightedTrapMean w (col.map (fun v => v - wsum w (midcol col) / w.sum)) = 0 := by
  unfold weightedTrapMean
  rw [midcol_map_sub, wsum_map_sub _ w (midcol col)
    (by rw [length_midcol, ← hw]; exact (Nat.add_sub_cancel _ _).symm)]
  rw [mul_div_cancel₀ _ hsum]
  simp

/-! ### Per-target views of the matrix pipeline -/

theorem midpoints_rows_length (ale : Mat) (m : Nat) (h : ∀ r ∈ ale, r.length = m) :
    ∀ mid ∈ midpoints ale, mid.length = m := by
  intro mid hmid
  rcases mem_zipWith_elim _ ale ale.tail mid hmid with ⟨a, b, ha, hb, rfl⟩
  have hb' : b ∈ ale := List.mem_of_mem_tail hb
  rw [length_vscale, length_vadd, h a ha, h b hb', Nat.min_self]

theorem weightRows_length (w : List ℚ) (mids : Mat) (m : Nat)
    (h : ∀ mid ∈ mids, mid.length = m) :
    ∀ z ∈ List.zipWith (fun wk mid => vscale wk mid) w mids, z.length = m := by
  intro z hz
  rcases mem_zipWith_elim _ w mids z hz with ⟨wk, mid, _, hmid, rfl⟩
  rw [length_vscale]
  exact h mid hmid

theorem trapMean_length (ale : Mat) (w : List ℚ) (m : Nat) (h : ∀ r ∈ ale, r.length = m) :
    (trapMean ale w m).length = m := by
  unfold trapMean
  rw [length_vscale]
  exact length_msum m _ (weightRows_length w _ m (midpoints_rows_length ale m h))

theorem midpoints_map_getD (t m : Nat) (ht : t < m) :
    ∀ ale : Mat, (∀ r ∈ ale, r.length = m) →
      (midpoints ale).map (fun r => r.getD t 0) = midcol (ale.map (fun r => r.getD t 0))
  | [], _ => rfl
  | [_], _ => rfl
  | a :: b :: rest, h => by
    have ha : a.length = m := h a (List.mem_cons_self _ _)
    have hb : b.length = m := h b (List.mem_cons_of_mem _ (List.mem_cons_self _ _))
    have hrec := midpoints_map_getD t m ht (b :: rest)
      (fun r hr => h r (List.mem_cons_of_mem _ hr))
    show (vscale (1 / 2) (vadd a b) :: midpoints (b :: rest)).map _ = _
    rw [List.map_cons, hrec]
    show _ :: _ = midcol (a.getD t 0 :: b.getD t 0 :: rest.map _)
    rw [midcol_cons_cons]
    congr 1
    rw [getD_vscale _ _ t (by rw [length_vadd, ha, hb, Nat.min_self]; exact ht),
      getD_vadd a b t (by rw [ha]; exact ht) (by rw [hb]; exact ht)]
    ring

theorem weightRows_map_getD (t : Nat) :
    ∀ (w : List ℚ) (mids : Mat), (∀ mid ∈ mids, t < mid.length) →
      (List.zipWith (fun wk mid => vscale wk mid) w mids).map (fun r => r.getD t 0) =
        List.zipWith (· * ·) w (mids.map (fun r => r.getD t 0))
  | [], [], _ => rfl
  | [], _ :: _, _ => rfl
  | _ :: _, [], _ => rfl
  | wk :: w, mid :: mids, h => by
    rw [List.zipWith_cons_cons, List.map_cons, List.map_cons, List.zipWith_cons_cons]
    congr 1
    · exact getD_vscale wk mid t (h mid (List.mem_cons_self _ _))
    · exact weightRows_map_getD t w mids (fun x hx => h x (List.mem_cons_of_mem _ hx))

theorem getD_trapMean (ale : Mat) (w : List ℚ) (m t : Nat) (ht : t < m)
    (h : ∀ r ∈ ale, r.length = m) :
    (trapMean ale w m).getD t 0 =
      wsum w (midcol (ale.map (fun r => r.getD t 0))) / w.sum := by
  have hmids := midpoints_rows_length ale m h
  have hz := weightRows_length w _ m hmids
  unfold trapMean
  rw [getD_vscale _ _ t (by rw [length_msum m _ hz]; exact ht), getD_msum m _ t ht hz,
    weightRows_map_getD t w _ (fun mid hmid => by rw [hmids mid hmid]; exact ht),
    midpoints_map_getD t m ht ale h]
  exact one_div_mul_eq_div _ _

theorem center_map_getD (ale : Mat) (w : List ℚ) (m t : Nat) (ht : t < m)
    (h : ∀ r ∈ ale, r.length = m) :
    (center ale w m).map (fun r => r.getD t 0) =
      (ale.map (fun r => r.getD t 0)).map
        (fun v => v - (trapMean ale w m).getD t 0) := by
  unfold center
  rw [List.map_map, List.map_map]
  apply List.map_congr_left
  intro r hr
  show (vsub r (trapMean ale w m)).getD t 0 = r.getD t 0 - (trapMean ale w m).getD t 0
  exact getD_vsub r _ t (by rw [h r hr]; exact ht)
    (by rw [trapMean_length ale w m h]; exact ht)

theorem length_center (ale : Mat) (w : List ℚ) (m : Nat) :
    (center ale w m).length = ale.length := List.length_map _ _

/-! ### Quantile edge lemmas -/

theorem cutPos_mono (n res : Nat) {j1 j2 : Nat} (h : j1 ≤ j2) :
    cutPos n res j1 ≤ cutPos n res j2 := by
  unfold cutPos
  have hdiv : (j1 * n + res - 1) / res ≤ (j2 * n + res - 1) / res :=
    Nat.div_le_div_right (Nat.sub_le_sub_right
      (Nat.add_le_add_right (Nat.mul_le_mul_right n h) res) 1)
  exact Nat.sub_le_sub_right (max_le_max (Nat.le_refl 1) hdiv) 1

theorem cutPos_lt (n res j : Nat) (hn : 1 ≤ n) (hres : 1 ≤ res) (hj : j ≤ res) :
    cutPos n res j < n := by
  unfold cutPos
  have h1 : j * n + res - 1 ≤ res * n + res - 1 :=
    Nat.sub_le_sub_right (Nat.add_le_add_right (Nat.mul_le_mul_right n hj) res) 1
  have h2 : (res * n + res - 1) / res = n + (res - 1) / res := by
    rw [Nat.add_sub_assoc hres, Nat.mul_add_div (Nat.lt_of_lt_of_le Nat.zero_lt_one hres)]
  have h3 : (res - 1) / res = 0 :=
    Nat.div_eq_of_lt (Nat.sub_lt (Nat.lt_of_lt_of_le Nat.zero_lt_one hres) Nat.one_pos)
  have h4 : (j * n + res - 1) / res ≤ n := by
    calc (j * n + res - 1) / res ≤ (res * n + res - 1) / res := Nat.div_le_div_right h1
    _ = n := by rw [h2, h3]; omega
  have h5 : max 1 ((j * n + res - 1) / res) ≤ n := by
    rcases Nat.max_le.mpr ⟨hn, h4⟩ with h
    exact Nat.max_le.mpr ⟨hn, h4⟩
  omega

theorem cutPos_zero (n res : Nat) (hres : 1 ≤ res) : cutPos n res 0 = 0 := by
  unfold cutPos
  have h3 : (0 * n + res - 1) / res = 0 := by
    rw [Nat.zero_mul, Nat.zero_add]
    exact Nat.div_eq_of_lt (Nat.sub_lt (Nat.lt_of_lt_of_le Nat.zero_lt_one hres) Nat.one_pos)
  rw [h3]
  omega

theorem cutPos_last (n res : Nat) (hn : 1 ≤ n) (hres : 1 ≤ res) :
    cutPos n res res = n - 1 := by
  unfold cutPos
  have h2 : (res * n + res - 1) / res = n := by
    rw [Nat.add_sub_assoc hres, Nat.mul_add_div (Nat.lt_of_lt_of_le Nat.zero_lt_one hres),
      Nat.div_eq_of_lt (Nat.sub_lt (Nat.lt_of_lt_of_le Nat.zero_lt_one hres) Nat.one_pos)]
    omega
  rw [h2, Nat.max_eq_right hn]

theorem length_rawQuantiles (s : List ℚ) (res : Nat) :
    (rawQuantiles s res).length = res + 1 := by
  simp [rawQuantiles]

theorem rawQuantiles_sorted (s : List ℚ) (res : Nat) (hs : s.Sorted (· ≤ ·))
    (hn : 1 ≤ s.length) (hres : 1 ≤ res) : (rawQuantiles s res).Sorted (· ≤ ·) := by
  unfold rawQuantiles
  apply List.pairwise_map.mpr
  apply (List.pairwise_lt_range (res + 1)).imp_of_mem
  intro j1 j2 _ h2 hlt
  have hj2 : j2 ≤ res := by
    have := List.mem_range.mp h2
    omega
  exact sorted_getD_le s hs _ _ (cutPos_mono s.length res (Nat.le_of_lt hlt))
    (cutPos_lt s.length res j2 hn hres hj2)

theorem sortedColumn_sorted (vals : List ℚ) : (sortedColumn vals).Sorted (· ≤ ·) :=
  List.sorted_insertionSort _ _

theorem sortedColumn_perm (vals : List ℚ) : List.Perm (sortedColumn vals) vals :=
  List.perm_insertionSort _ _

theorem length_sortedColumn (vals : List ℚ) : (sortedColumn vals).length = vals.length :=
  (sortedColumn_perm vals).length_eq

theorem quantileEdges_sorted (vals : List ℚ) (res : Nat) (hn : vals ≠ [])
    (hres : 1 ≤ res) : (quantileEdges vals res).Sorted (· < ·) := by
  apply sorted_dedup_strict
  apply rawQuantiles_sorted _ _ (sortedColumn_sorted vals) _ hres
  rw [length_sortedColumn]
  exact Nat.succ_le_of_lt (List.length_pos.mpr hn)

theorem quantileEdges_length_le (vals : List ℚ) (res : Nat) :
    (quantileEdges vals res).length ≤ res + 1 := by
  calc (quantileEdges vals res).length ≤ (rawQuantiles (sortedColumn vals) res).length :=
    (List.dedup_sublist _).length_le
  _ = res + 1 := length_rawQuantiles _ _

theorem quantileEdges_ne_nil (vals : List ℚ) (res : Nat) : quantileEdges vals res ≠ [] := by
  have hlen : 0 < (rawQuantiles (sortedColumn vals) res).length := by
    rw [length_rawQuantiles]
    exact Nat.succ_pos res
  have hmem := getD_mem (rawQuantiles (sortedColumn vals) res) 0 0 hlen
  exact List.ne_nil_of_mem (List.mem_dedup.mpr hmem)

theorem mem_quantileEdges (vals : List ℚ) (res : Nat) (hn : vals ≠ []) (hres : 1 ≤ res) :
    ∀ e ∈ quantileEdges vals res, e ∈ vals := by
  intro e he
  rcases List.mem_map.mp (List.mem_dedup.mp he) with ⟨j, hj, rfl⟩
  have hjres : j ≤ res := by
    have := List.mem_range.mp hj
    omega
  have hslen : 1 ≤ (sortedColumn vals).length := by
    rw [length_sortedColumn]
    exact Nat.succ_le_of_lt (List.length_pos.mpr hn)
  have hpos := cutPos_lt (sortedColumn vals).length res j hslen hres hjres
  exact (sortedColumn_perm vals).mem_iff.mp (getD_mem _ 0 _ hpos)

theorem quantileEdges_head_le (vals : List ℚ) (res : Nat) (hn : vals ≠ []) (hres : 1 ≤ res)
    (x : ℚ) (hx : x ∈ vals) : (quantileEdges vals res).getD 0 0 ≤ x := by
  set s := sortedColumn vals with hsdef
  have hslen : 1 ≤ s.length := by
    rw [hsdef, length_sortedColumn]
    exact Nat.succ_le_of_lt (List.length_pos.mpr hn)
  have hmemraw : s.getD 0 0 ∈ rawQuantiles s res := by
    apply List.mem_map.mpr
    refine ⟨0, List.mem_range.mpr (Nat.succ_pos res), ?_⟩
    rw [cutPos_zero _ _ hres]
  have hmemE : s.getD 0 0 ∈ quantileEdges vals res := List.mem_dedup.mpr hmemraw
  have hEs : (quantileEdges vals res).Sorted (· ≤ ·) :=
    (quantileEdges_sorted vals res hn hres).imp le_of_lt
  calc (quantileEdges vals res).getD 0 0 ≤ s.getD 0 0 :=
    sorted_head_le_mem _ hEs _ hmemE
  _ ≤ x := sorted_head_le_mem s (sortedColumn_sorted vals) x
      ((sortedColumn_perm vals).mem_iff.mpr hx)

theorem quantileEdges_last_ge (vals : List ℚ) (res : Nat) (hn : vals ≠ []) (hres : 1 ≤ res)
    (x : ℚ) (hx : x ∈ vals) :
    x ≤ (quantileEdges vals res).getD ((quantileEdges vals res).length - 1) 0 := by
  set s := sortedColumn vals with hsdef
  have hslen : 1 ≤ s.length := by
    rw [hsdef, length_sortedColumn]
    exact Nat.succ_le_of_lt (List.length_pos.mpr hn)
  have hmemraw : s.getD (s.length - 1) 0 ∈ rawQuantiles s res := by
    apply List.mem_map.mpr
    refine ⟨res, List.mem_range.mpr (Nat.lt_succ_self res), ?_⟩
    rw [cutPos_last _ _ hslen hres]
  have hmemE : s.getD (s.length - 1) 0 ∈ quantileEdges vals res := List.mem_dedup.mpr hmemraw
  have hEs : (quantileEdges vals res).Sorted (· ≤ ·) :=
    (quantileEdges_sorted vals res hn hres).imp le_of_lt
  have h1 : x ≤ s.getD (s.length - 1) 0 :=
    sorted_mem_le_last s (sortedColumn_sorted vals) x
      ((sortedColumn_perm vals).mem_iff.mpr hx)
  exact le_trans h1 (sorted_mem_le_last _ hEs _ hmemE)

/-! ### Bin-assignment lemmas -/

theorem countP_lt_sorted (x : ℚ) : ∀ l : List ℚ, l.Sorted (· ≤ ·) → ∀ i, i < l.length →
    (l.getD i 0 < x ↔ i < l.countP (fun e => decide (e < x)))
  | [], _, i, hi => absurd hi (by simp)
  | a :: l, h, i, hi => by
    have hal : ∀ b ∈ l, a ≤ b := (List.pairwise_cons.mp h).1
    have hl : l.Sorted (· ≤ ·) := (List.pairwise_cons.mp h).2
    rw [List.countP_cons]
    by_cases hax : a < x
    · rw [if_pos (decide_eq_true hax)]
      cases i with
      | zero =>
        simp only [List.getD_cons_zero]
        exact iff_of_true hax (Nat.succ_pos _)
      | succ i =>
        rw [List.getD_cons_succ,
          countP_lt_sorted x l hl i (Nat.lt_of_succ_lt_succ hi)]
        omega
    · have hcz : l.countP (fun e => decide (e < x)) = 0 := by
        apply List.countP_eq_zero.mpr
        intro b hb
        simp only [decide_eq_true_eq]
        exact fun hbx => hax (lt_of_le_of_lt (hal b hb) hbx)
      rw [if_neg (fun hcon => hax (of_decide_eq_true hcon)), hcz]
      cases i with
      | zero =>
        simp only [List.getD_cons_zero]
        exact iff_of_false hax (Nat.lt_irrefl 0)
      | succ i =>
        rw [List.getD_cons_succ]
        refine iff_of_false ?_ (by omega)
        intro hlt
        exact hax (lt_of_le_of_lt
          (hal _ (getD_mem l 0 i (Nat.lt_of_succ_lt_succ hi))) hlt)

theorem tail_sorted_le (edges : List ℚ) (hE : edges.Sorted (· < ·)) :
    edges.tail.Sorted (· ≤ ·) :=
  List.Pairwise.sublist (List.tail_sublist edges) (hE.imp le_of_lt)

theorem binIndex_le (edges : List ℚ) (x : ℚ) : binIndex edges x ≤ edges.length - 1 := by
  unfold binIndex
  have h := List.countP_le_length (fun e => decide (e < x)) (l := edges.tail)
  rwa [List.length_tail] at h

theorem binIndex_lt (edges : List ℚ) (x : ℚ) (hE : edges.Sorted (· < ·))
    (hK : 1 ≤ edges.length - 1) (hxK : x ≤ edges.getD (edges.length - 1) 0) :
    binIndex edges x < edges.length - 1 := by
  rcases Nat.lt_or_ge (binIndex edges x) (edges.length - 1) with h | h
  · exact h
  exfalso
  have hc : binIndex edges x = edges.length - 1 := Nat.le_antisymm (binIndex_le edges x) h
  have hne : edges ≠ [] := by
    intro hnil
    rw [hnil] at hK
    simp at hK
  have hlen : edges.length - 1 - 1 < edges.tail.length := by
    rw [List.length_tail]
    omega
  have hlt : edges.tail.getD (edges.length - 1 - 1) 0 < x := by
    rw [countP_lt_sorted x edges.tail (tail_sorted_le edges hE) _ hlen]
    show edges.length - 1 - 1 < binIndex edges x
    omega
  rw [getD_tail edges 0 _ hne] at hlt
  have : edges.length - 1 - 1 + 1 = edges.length - 1 := by omega
  rw [this] at hlt
  exact absurd hxK (not_le_of_lt hlt)

theorem binIndex_lower (edges : List ℚ) (x : ℚ) (hE : edges.Sorted (· < ·))
    (hx0 : edges.getD 0 0 ≤ x) : edges.getD (binIndex edges x) 0 ≤ x := by
  cases hc : binIndex edges x with
  | zero => exact hx0
  | succ c =>
    have hclen : c < edges.tail.length := by
      have := binIndex_le edges x
      rw [hc] at this
      rw [List.length_tail]
      omega
    have hne : edges ≠ [] := by
      intro hnil
      rw [hnil] at hclen
      simp at hclen
    have hlt : edges.tail.getD c 0 < x := by
      rw [countP_lt_sorted x edges.tail (tail_sorted_le edges hE) _ hclen]
      show c < binIndex edges x
      omega
    rw [getD_tail edges 0 _ hne] at hlt
    exact le_of_lt hlt

theorem binIndex_upper (edges : List ℚ) (x : ℚ) (hE : edges.Sorted (· < ·))
    (hb : binIndex edges x < edges.length - 1) :
    x ≤ edges.getD (binIndex edges x + 1) 0 := by
  have hblen : binIndex edges x < edges.tail.length := by
    rw [List.length_tail]
    exact hb
  have hne : edges ≠ [] := by
    intro hnil
    rw [hnil] at hblen
    simp at hblen
  have hnl : ¬ edges.tail.getD (binIndex edges x) 0 < x := by
    rw [countP_lt_sorted x edges.tail (tail_sorted_le edges hE) _ hblen]
    exact Nat.lt_irrefl _
  rw [getD_tail edges 0 _ hne] at hnl
  exact le_of_not_lt hnl

theorem binIndex_eq_edge (edges : List ℚ) (hE : edges.Sorted (· < ·)) (j : Nat)
    (hj1 : 1 ≤ j) (hjK : j ≤ edges.length - 1) :
    binIndex edges (edges.getD j 0) = j - 1 := by
  set x := edges.getD j 0 with hxdef
  set c := binIndex edges x with hcdef
  have hne : edges ≠ [] := by
    intro hnil
    rw [hnil] at hjK
    simp at hjK
    omega
  have hcle : c ≤ edges.length - 1 := binIndex_le edges x
  have htl := tail_sorted_le edges hE
  rcases Nat.lt_trichotomy c (j - 1) with h | h | h
  · exfalso
    have hj2 : 2 ≤ j := by omega
    have hi : j - 2 < edges.tail.length := by
      rw [List.length_tail]
      omega
    have hget : edges.tail.getD (j - 2) 0 = edges.getD (j - 1) 0 := by
      rw [getD_tail edges 0 _ hne]
      congr 1
      omega
    have hlt : edges.tail.getD (j - 2) 0 < x := by
      rw [hget, hxdef]
      exact strict_sorted_getD_lt edges hE (j - 1) j (by omega) (by omega)
    rw [countP_lt_sorted x edges.tail htl _ hi] at hlt
    have : j - 2 < c := hlt
    omega
  · exact h
  · exfalso
    have hi : j - 1 < edges.tail.length := by
      rw [List.length_tail]
      omega
    have hlt : edges.tail.getD (j - 1) 0 < x := by
      rw [countP_lt_sorted x edges.tail htl _ hi]
      exact h
    rw [getD_tail edges 0 _ hne] at hlt
    have : j - 1 + 1 = j := by omega
    rw [this, ← hxdef] at hlt
    exact lt_irrefl x hlt

theorem binIndex_iff (edges : List ℚ) (x : ℚ) (k : Nat) (hE : edges.Sorted (· < ·))
    (hk : k < edges.length - 1) :
    binIndex edges x = k ↔
      ((k = 0 ∨ edges.getD k 0 < x) ∧ x ≤ edges.getD (k + 1) 0) := by
  have hK : 1 ≤ edges.length - 1 := by omega
  have hne : edges ≠ [] := by
    intro hnil
    rw [hnil] at hk
    simp at hk
  have htl := tail_sorted_le edges hE
  constructor
  · intro hbk
    subst hbk
    refine ⟨?_, binIndex_upper edges x hE hk⟩
    by_cases hk0 : binIndex edges x = 0
    · exact Or.inl hk0
    right
    have hk1 : 1 ≤ binIndex edges x := Nat.pos_of_ne_zero hk0
    have hi : binIndex edges x - 1 < edges.tail.length := by
      rw [List.length_tail]
      omega
    have hlt : edges.tail.getD (binIndex edges x - 1) 0 < x := by
      rw [countP_lt_sorted x edges.tail htl _ hi]
      show binIndex edges x - 1 < binIndex edges x
      omega
    rw [getD_tail edges 0 _ hne] at hlt
    have heq : binIndex edges x - 1 + 1 = binIndex edges x := by omega
    rw [heq] at hlt
    exact hlt
  · rintro ⟨hlow, hhigh⟩
    have hcle : binIndex edges x ≤ edges.length - 1 := binIndex_le edges x
    rcases Nat.lt_trichotomy (binIndex edges x) k with h | h | h
    · exfalso
      have hk1 : 1 ≤ k := by omega
      have hglt : edges.getD k 0 < x := by
        rcases hlow with h0 | hlt
        · omega
        · exact hlt
      have hi : k - 1 < edges.tail.length := by
        rw [List.length_tail]
        omega
      have hlt2 : edges.tail.getD (k - 1) 0 < x := by
        rw [getD_tail edges 0 _ hne]
        have : k - 1 + 1 = k := by omega
        rw [this]
        exact hglt
      rw [countP_lt_sorted x edges.tail htl _ hi] at hlt2
      have hlt3 : k - 1 < binIndex edges x := hlt2
      omega
    · exact h
    · exfalso
      have hi : k < edges.tail.length := by
        rw [List.length_tail]
        omega
      have hlt2 : edges.tail.getD k 0 < x := by
        rw [countP_lt_sorted x edges.tail htl _ hi]
        exact h
      rw [getD_tail edges 0 _ hne] at hlt2
      exact absurd hhigh (not_le_of_lt hlt2)

/-! ### Fail-fast sequencing lemmas -/

/-- Whether a fallible computation succeeded. -/
def isOkE {β : Type} : Except AleError β → Bool
  | .ok _ => true
  | .error _ => false

theorem isOkE_elim {β : Type} (v : Except AleError β) (h : isOkE v = true) :
    ∃ b, v = .ok b := by
  cases v with
  | ok b => exact ⟨b, rfl⟩
  | error e => simp [isOkE] at h

theorem collectExcept_ok_elim {α β : Type} (f : α → Except AleError β) (dα : α) (dβ : β) :
    ∀ (l : List α) (ys : List β), collectExcept f l = .ok ys →
      ys.length = l.length ∧ ∀ j, j < l.length → f (l.getD j dα) = .ok (ys.getD j dβ) := by
  intro l
  induction l with
  | nil =>
    intro ys h
    simp only [collectExcept] at h
    injection h with h'
    subst h'
    exact ⟨rfl, fun j hj => absurd hj (by simp)⟩
  | cons a rest ih =>
    intro ys h
    simp only [collectExcept] at h
    rcases hfa : f a with e | b
    · rw [hfa] at h
      simp at h
    · rw [hfa] at h
      rcases hrest : collectExcept f rest with e | bs
      · rw [hrest] at h
        simp at h
      · rw [hrest] at h
        injection h with h'
        subst h'
        obtain ⟨hlen, hnth⟩ := ih bs hrest
        refine ⟨by simp [hlen], ?_⟩
        intro j hj
        cases j with
        | zero =>
          rw [List.getD_cons_zero, List.getD_cons_zero]
          exact hfa
        | succ j =>
          rw [List.getD_cons_succ, List.getD_cons_succ]
          exact hnth j (Nat.lt_of_succ_lt_succ hj)

theorem collectExcept_error_elim {α β : Type} (f : α → Except AleError β) :
    ∀ (l : List α) (e : AleError), collectExcept f l = .error e → ∃ a ∈ l, f a = .error e := by
  intro l
  induction l with
  | nil =>
    intro e h
    simp only [collectExcept] at h
    simp at h
  | cons a rest ih =>
    intro e h
    simp only [collectExcept] at h
    rcases hfa : f a with e' | b
    · rw [hfa] at h
      injection h with h'
      subst h'
      exact ⟨a, List.mem_cons_self _ _, hfa⟩
    · rw [hfa] at h
      rcases hrest : collectExcept f rest with e' | bs
      · rw [hrest] at h
        injection h with h'
        subst h'
        rcases ih _ hrest with ⟨a', ha', hfa'⟩
        exact ⟨a', List.mem_cons_of_mem _ ha', hfa'⟩
      · rw [hrest] at h
        simp at h

theorem collectExcept_map_ok {α β : Type} (f : α → Except AleError β) (g : α → β) :
    ∀ l : List α, (∀ a ∈ l, f a = .ok (g a)) → collectExcept f l = .ok (l.map g) := by
  intro l
  induction l with
  | nil => intro _; rfl
  | cons a rest ih =>
    intro h
    simp only [collectExcept, h a (List.mem_cons_self _ _),
      ih (fun x hx => h x (List.mem_cons_of_mem _ hx)), List.map_cons]

theorem collectExcept_error_at {α β : Type} (f : α → Except AleError β) (d : α) :
    ∀ (l : List α) (j : Nat) (e : AleError), j < l.length →
      (∀ j', j' < j → isOkE (f (l.getD j' d)) = true) → f (l.getD j d) = .error e →
      collectExcept f l = .error e := by
  intro l
  induction l with
  | nil =>
    intro j e hj _ _
    simp at hj
  | cons a rest ih =>
    intro j e hj hpre herr
    cases j with
    | zero =>
      rw [List.getD_cons_zero] at herr
      simp only [collectExcept, herr]
    | succ j =>
      have hok : isOkE (f a) = true := by
        have := hpre 0 (Nat.succ_pos _)
        rwa [List.getD_cons_zero] at this
      rcases isOkE_elim _ hok with ⟨b, hfa⟩
      rw [List.getD_cons_succ] at herr
      have hrest : collectExcept f rest = .error e := by
        refine ih j e (Nat.lt_of_succ_lt_succ hj) ?_ herr
        intro j' hj'
        have := hpre (j' + 1) (Nat.succ_lt_succ hj')
        rwa [List.getD_cons_succ] at this
      simp only [collectExcept, hfa, hrest]

/-! ### Component inversion lemmas -/

theorem bins_ok_elim (i : Nat) (vals : List ℚ) (res : Nat) (E : List ℚ)
    (h : bins i vals res = .ok E) :
    2 ≤ vals.dedup.length ∧ E = quantileEdges vals res := by
  unfold bins at h
  split at h
  · simp at h
  · injection h with h'
    subst h'
    constructor
    · omega
    · rfl

theorem bins_error_elim (i : Nat) (vals : List ℚ) (res : Nat) (e : AleError)
    (h : bins i vals res = .error e) :
    e = ⟨.degenerateFeature, i, none⟩ ∧ vals.dedup.length < 2 := by
  unfold bins at h
  split at h
  · injection h with h'
    subst h'
    constructor
    · rfl
    · assumption
  · simp at h

theorem localEffectBin_empty (X : Mat) (i : Nat) (edges : List ℚ) (p : Predictor)
    (m k : Nat) (h : instancesInBin X i edges k = []) :
    localEffectBin X i edges p m k = .ok (List.replicate m 0) := by
  simp [localEffectBin, h]

theorem localEffectBin_ok_length (X : Mat) (i : Nat) (edges : List ℚ) (p : Predictor)
    (m k : Nat) (v : List ℚ) (h : localEffectBin X i edges p m k = .ok v) :
    v.length = m := by
  simp only [localEffectBin] at h
  split at h
  · injection h with h'
    subst h'
    exact List.length_replicate _ _
  · split at h
    case isTrue hshape =>
      injection h with h'
      subst h'
      rw [length_vscale]
      apply length_msum
      intro r hr
      rcases mem_zipWith_elim _ _ _ r hr with ⟨ru, rl, hru, hrl, rfl⟩
      have hu : ru.length = m := hshape.2 ru (List.drop_subset _ _ hru)
      have hl : rl.length = m := hshape.2 rl (List.take_subset _ _ hrl)
      rw [length_vsub, hu, hl, Nat.min_self]
    case isFalse => simp at h

theorem localEffectBin_error_elim (X : Mat) (i : Nat) (edges : List ℚ) (p : Predictor)
    (m k : Nat) (e : AleError) (h : localEffectBin X i edges p m k = .error e) :
    e = ⟨.predictorError, i, some k⟩ := by
  simp only [localEffectBin] at h
  split at h
  · simp at h
  · split at h
    · simp at h
    · injection h with h'
      exact h'.symm

theorem localEffects_ok_length (X : Mat) (i : Nat) (edges : List ℚ) (p : Predictor)
    (m : Nat) (le : Mat) (h : localEffects X i edges p m = .ok le) :
    le.length = edges.length - 1 := by
  have := (collectExcept_ok_elim _ 0 [] _ le h).1
  rwa [List.length_range] at this

theorem localEffects_ok_nth (X : Mat) (i : Nat) (edges : List ℚ) (p : Predictor)
    (m : Nat) (le : Mat) (h : localEffects X i edges p m = .ok le) :
    ∀ k, k < edges.length - 1 → localEffectBin X i edges p m k = .ok (le.getD k []) := by
  intro k hk
  have hnth := (collectExcept_ok_elim _ 0 [] _ le h).2 k (by rwa [List.length_range])
  rwa [getD_range _ k hk] at hnth

theorem localEffects_ok_rows (X : Mat) (i : Nat) (edges : List ℚ) (p : Predictor)
    (m : Nat) (le : Mat) (h : localEffects X i edges p m = .ok le) :
    ∀ row ∈ le, row.length = m := by
  intro row hrow
  rcases List.mem_iff_getElem.mp hrow with ⟨k, hklt, hrow'⟩
  have hlen := localEffects_ok_length X i edges p m le h
  have hnth := localEffects_ok_nth X i edges p m le h k (by omega)
  have hgetD : le.getD k [] = row := by
    rw [List.getD_eq_getElem le [] hklt, hrow']
  rw [hgetD] at hnth
  exact localEffectBin_ok_length X i edges p m k row hnth

theorem explainFeature_ok_elim (cfg : AleConfig) (X : Mat) (p : Predictor) (i : Nat)
    (r : FeatureResult) (h : explainFeature cfg X p i = .ok r) :
    i < cfg.numFeatures ∧ ∃ edges le,
      bins i (column X i) cfg.resolution = .ok edges ∧
      localEffects X i edges p cfg.numTargets = .ok le ∧
      r = ⟨i, edges,
        center (accumulate cfg.numTargets le) (binWeights X i edges) cfg.numTargets,
        featureDecilesOf (column X i), hasEmptyBin X i edges⟩ := by
  unfold explainFeature at h
  split at h
  case isTrue hin =>
    split at h
    next e' heq => simp at h
    next edges heq =>
      split at h
      next e' heq2 => simp at h
      next le heq2 =>
        injection h with h'
        exact ⟨hin, edges, le, heq, heq2, h'.symm⟩
  case isFalse => simp at h

theorem explainFeature_error_feature (cfg : AleConfig) (X : Mat) (p : Predictor) (i : Nat)
    (e : AleError) (h : explainFeature cfg X p i = .error e) : e.feature = i := by
  unfold explainFeature at h
  split at h
  case isTrue hin =>
    split at h
    next e' heq =>
      injection h with h'
      subst h'
      rw [(bins_error_elim i _ _ e' heq).1]
    next edges heq =>
      split at h
      next e' heq2 =>
        injection h with h'
        subst h'
        rcases collectExcept_error_elim _ _ e' heq2 with ⟨k, _, hbad⟩
        rw [localEffectBin_error_elim X i edges p cfg.numTargets k e' hbad]
      next le heq2 => simp at h
  case isFalse =>
    injection h with h'
    subst h'
    rfl

theorem buildExplanation_ok_elim (cfg : AleConfig) (results : List FeatureResult)
    (expl : Explanation) (h : buildExplanation cfg results = .ok expl) :
    (∀ r ∈ results, r.edges.length = r.centered.length) ∧
    expl.features = results.map (fun r => r.feature) ∧
    expl.featureValues = results.map (fun r => r.edges) ∧
    expl.aleValues = results.map (fun r => targetColumns cfg.numTargets r.centered) := by
  unfold buildExplanation at h
  split at h
  case isTrue hall =>
    injection h with h'
    subst h'
    refine ⟨?_, rfl, rfl, rfl⟩
    intro r hr
    have := List.all_eq_true.mp hall r hr
    simpa using this
  case isFalse => simp at h

theorem buildExplanation_mismatch (cfg : AleConfig) (results : List FeatureResult)
    (h : ∃ r ∈ results, r.edges.length ≠ r.centered.length) :
    ∃ fi, buildExplanation cfg results = .error ⟨.shapeMismatch, fi, none⟩ := by
  unfold buildExplanation
  rw [if_neg]
  · exact ⟨_, rfl⟩
  · intro hall
    rcases h with ⟨r, hr, hne⟩
    exact hne (by simpa using List.all_eq_true.mp hall r hr)

theorem explain_ok_elim (cfg : AleConfig) (X : Mat) (p : Predictor)
    (s : Option (List Nat)) (expl : Explanation) (h : explain cfg X p s = .ok expl) :
    X.all (fun r => r.length == cfg.numFeatures) = true ∧
    ∃ results,
      collectExcept (explainFeature cfg X p) (s.getD (List.range cfg.numFeatures)) =
        .ok results ∧
      buildExplanation cfg results = .ok expl := by
  unfold explain at h
  split at h
  case isTrue hall =>
    rcases hc : collectExcept (explainFeature cfg X p) (s.getD (List.range cfg.numFeatures))
      with e | results
    · rw [hc] at h
      simp at h
    · rw [hc] at h
      exact ⟨hall, results, rfl, h⟩
  case isFalse => simp at h

/-- The default feature result used for safe list indexing. -/
def dummyFR : FeatureResult := ⟨0, [], [], [], false⟩

deriving instance DecidableEq for Except

theorem explain_ok_feature_elim (cfg : AleConfig) (X : Mat) (p : Predictor)
    (s : Option (List Nat)) (expl : Explanation) (h : explain cfg X p s = .ok expl) :
    ∀ jf, jf < expl.features.length →
      ∃ edges le,
        expl.features.getD jf 0 < cfg.numFeatures ∧
        bins (expl.features.getD jf 0) (column X (expl.features.getD jf 0))
          cfg.resolution = .ok edges ∧
        localEffects X (expl.features.getD jf 0) edges p cfg.numTargets = .ok le ∧
        expl.featureValues.getD jf [] = edges ∧
        expl.aleValues.getD jf [] =
          targetColumns cfg.numTargets
            (center (accumulate cfg.numTargets le)
              (binWeights X (expl.features.getD jf 0) edges) cfg.numTargets) := by
  intro jf hjf
  obtain ⟨_, results, hcoll, hbuild⟩ := explain_ok_elim cfg X p s expl h
  obtain ⟨_, hfeat, hfv, hav⟩ := buildExplanation_ok_elim cfg results expl hbuild
  have hjr : jf < results.length := by
    rw [hfeat, List.length_map] at hjf
    exact hjf
  obtain ⟨hlen, hnth⟩ :=
    collectExcept_ok_elim (explainFeature cfg X p) 0 dummyFR _ results hcoll
  have hjfeats : jf < (s.getD (List.range cfg.numFeatures)).length := by
    rw [← hlen]
    exact hjr
  have hok := hnth jf hjfeats
  obtain ⟨hin, edges, le, hb, hle, hr⟩ :=
    explainFeature_ok_elim cfg X p _ _ hok
  have hfeature : expl.features.getD jf 0 = (results.getD jf dummyFR).feature := by
    rw [hfeat]
    exact getD_map (fun r => r.feature) dummyFR 0 results jf hjr
  have hival : (results.getD jf dummyFR).feature = (s.getD (List.range cfg.numFeatures)).getD jf 0 := by
    rw [hr]
  refine ⟨edges, le, ?_, ?_, ?_, ?_, ?_⟩
  · rw [hfeature, hival]
    exact hin
  · rw [hfeature, hival]
    exact hb
  · rw [hfeature, hival]
    exact hle
  · rw [hfv, getD_map (fun r => r.edges) dummyFR [] results jf hjr, hr]
  · rw [hav, getD_map (fun r => targetColumns cfg.numTargets r.centered) dummyFR []
      results jf hjr, hfeature, hival, hr]

/-! ### Concrete inputs used by witnesses and counterexamples -/

/-- Configuration of the end-to-end scenario: resolution 10, one target, one feature. -/
def cfg9 : AleConfig := ⟨10, 1, 1, true⟩

/-- The end-to-end scenario input: a single feature column 0, 1, ..., 9. -/
def X9 : Mat := [[0], [1], [2], [3], [4], [5], [6], [7], [8], [9]]

/-- Weight of the end-to-end scenario predictor f(x) = 2 x. -/
def w9 : List ℚ := [2]

/-- The explanation the engine computes in the end-to-end scenario. -/
def E9 : Explanation :=
  ⟨[0], [[0, 1, 2, 3, 4, 5, 6, 7, 8, 9]],
    [[[-41/5, -31/5, -21/5, -11/5, -1/5, 9/5, 19/5, 29/5, 39/5, 49/5]]],
    [[0, 1, 2, 3, 4, 5, 6, 7, 8, 9]], []⟩

/-- A small linear-predictor scenario: resolution 4, one target, one feature. -/
def cfg4 : AleConfig := ⟨4, 1, 1, true⟩

/-- Input column 0, 1, 2, 3. -/
def X4 : Mat := [[0], [1], [2], [3]]

/-- Weight of the linear predictor f(x) = 3 x. -/
def w4 : List ℚ := [3]

/-! ### Claim C1 -/

/-- Claim C1: for every requested feature and every output target, the
ale_values returned by explain have a bin-weighted mean of zero, where the
mean is the weighted average of the trapezoidal midpoints (midpoint of ale[k]
and ale[k+1], weighted by the fraction of instances falling in bin k).  Over
the rationals the mean is exactly zero, hence within the 1e-9 relative
tolerance for any finite, non-degenerate input. -/
theorem explain_centering (cfg : AleConfig) (X : Mat) (p : Predictor)
    (s : Option (List Nat)) (expl : Explanation) (hok : explain cfg X p s = .ok expl) :
    ∀ jf, jf < expl.features.length → ∀ arr ∈ expl.aleValues.getD jf [],
      weightedTrapMean
        (binWeights X (expl.features.getD jf 0) (expl.featureValues.getD jf [])) arr = 0 := by
  intro jf hjf arr harr
  obtain ⟨edges, le, _, _, hle, hfv, hav⟩ :=
    explain_ok_feature_elim cfg X p s expl hok jf hjf
  rw [hfv]
  rw [hav] at harr
  unfold targetColumns at harr
  rcases List.mem_map.mp harr with ⟨t, ht, harr'⟩
  have htm : t < cfg.numTargets := List.mem_range.mp ht
  subst harr'
  set i := expl.features.getD jf 0 with hidef
  set w := binWeights X i edges with hwdef
  by_cases hs : w.sum = 0
  · unfold weightedTrapMean
    rw [hs, div_zero]
  · set ale := accumulate cfg.numTargets le with haledef
    have hrows : ∀ r ∈ ale, r.length = cfg.numTargets := by
      rw [haledef]
      exact accumFrom_rows_length cfg.numTargets le _ (List.length_replicate _ _)
        (localEffects_ok_rows X i edges p cfg.numTargets le hle)
    show weightedTrapMean w ((center ale w cfg.numTargets).map (fun r => r.getD t 0)) = 0
    rw [center_map_getD ale w cfg.numTargets t htm hrows,
      getD_trapMean ale w cfg.numTargets t htm hrows]
    apply scalar_center_zero _ _ _ hs
    rw [List.length_map, hwdef, haledef]
    unfold binWeights
    rw [List.length_map, List.length_range,
      show (accumulate cfg.numTargets le).length = le.length + 1 from accumFrom_length le _,
      localEffects_ok_length X i edges p cfg.numTargets le hle]

/-- Witness for claim C1: in the end-to-end scenario the returned curve has
bin-weighted trapezoidal mean exactly zero. -/
theorem explain_centering_witness :
    weightedTrapMean (binWeights X9 0 ([0, 1, 2, 3, 4, 5, 6, 7, 8, 9] : List ℚ))
      ([-41/5, -31/5, -21/5, -11/5, -1/5, 9/5, 19/5, 29/5, 39/5, 49/5] : List ℚ) = 0 :=
  explain_centering cfg9 X9 (linPred w9) none E9 (by with_unfolding_all decide) 0
    (by with_unfolding_all decide) _ (by with_unfolding_all decide)

/-! ### Claim C3 -/

/-- Claim C3: accumulate turns a (K, m) local-effects matrix into a (K+1, m)
matrix whose first row is zero and whose row k equals row k-1 plus
local_effects row k-1 for k = 1..K; being a Lean function of its argument it
is pure and deterministic by construction. -/
theorem accumulate_spec (m : Nat) (le : Mat) :
    (accumulate m le).length = le.length + 1 ∧
    (accumulate m le).getD 0 [] = List.replicate m 0 ∧
    (∀ k, k < le.length →
      (accumulate m le).getD (k + 1) [] =
        vadd ((accumulate m le).getD k []) (le.getD k [])) ∧
    ((∀ r ∈ le, r.length = m) → ∀ r ∈ accumulate m le, r.length = m) :=
  ⟨accumFrom_length le _, accumFrom_getD_zero le _,
    fun k hk => accumFrom_getD_succ le _ k hk,
    fun h => accumFrom_rows_length m le _ (List.length_replicate _ _) h⟩

/-- Witness for claim C3 on a concrete (2, 1) local-effects matrix. -/
theorem accumulate_spec_witness :
    (accumulate 1 [[1], [2]]).length = 3 ∧
    (accumulate 1 [[(1 : ℚ)], [2]]).getD 2 [] =
      vadd ((accumulate 1 [[1], [2]]).getD 1 []) ([[(1 : ℚ)], [2]].getD 1 []) :=
  ⟨(accumulate_spec 1 [[1], [2]]).1,
    (accumulate_spec 1 [[1], [2]]).2.2.1 1 (by decide)⟩

/-! ### Claim C4 -/

/-- Claim C4: in every Explanation returned by explain, the bin edges stored
in feature_values are strictly increasing, and after merging duplicate
quantile edges the number of bins K is at most the configured resolution. -/
theorem explain_edges_invariant (cfg : AleConfig) (X : Mat) (p : Predictor)
    (s : Option (List Nat)) (expl : Explanation) (hres : 1 ≤ cfg.resolution)
    (hok : explain cfg X p s = .ok expl) :
    ∀ jf, jf < expl.features.length →
      (expl.featureValues.getD jf []).Sorted (· < ·) ∧
      (expl.featureValues.getD jf []).length - 1 ≤ cfg.resolution := by
  intro jf hjf
  obtain ⟨edges, le, _, hb, _, hfv, _⟩ :=
    explain_ok_feature_elim cfg X p s expl hok jf hjf
  obtain ⟨hdedup, hE⟩ := bins_ok_elim _ _ _ _ hb
  rw [hfv, hE]
  have hnn : column X (expl.features.getD jf 0) ≠ [] := by
    intro hnil
    rw [hnil] at hdedup
    simp at hdedup
  constructor
  · exact quantileEdges_sorted _ _ hnn hres
  · have := quantileEdges_length_le (column X (expl.features.getD jf 0)) cfg.resolution
    omega

/-- Witness for claim C4: the edges computed for the column 0..3 at
resolution 4 are strictly increasing with at most 4 bins. -/
theorem explain_edges_invariant_witness :
    (([0, 1, 2, 3] : List ℚ).Sorted (· < ·)) ∧
    (([0, 1, 2, 3] : List ℚ).length - 1 ≤ cfg4.resolution) :=
  explain_edges_invariant cfg4 X4 (linPred w4) none
    ⟨[0], [[0, 1, 2, 3]], [[[-15/4, -3/4, 9/4, 21/4]]],
      [[0, 0, 1, 1, 1, 2, 2, 3, 3, 3]], []⟩
    (by decide) (by with_unfolding_all decide) 0 (by decide)

/-! ### Claim C5 -/

/-- Claim C5: for every feature and target of a returned Explanation the
per-target ale_values array has the same length as feature_values; the
builder checks the length match for every feature before returning, and a
mismatch yields a fatal ShapeMismatchError instead of an Explanation. -/
theorem explanation_shape_invariant :
    (∀ (cfg : AleConfig) (X : Mat) (p : Predictor) (s : Option (List Nat))
      (expl : Explanation), explain cfg X p s = .ok expl →
      ∀ jf, jf < expl.featureValues.length → ∀ arr ∈ expl.aleValues.getD jf [],
        arr.length = (expl.featureValues.getD jf []).length) ∧
    (∀ (cfg : AleConfig) (results : List FeatureResult) (expl : Explanation),
      buildExplanation cfg results = .ok expl →
      ∀ r ∈ results, r.edges.length = r.centered.length) ∧
    (∀ (cfg : AleConfig) (results : List FeatureResult),
      (∃ r ∈ results, r.edges.length ≠ r.centered.length) →
      ∃ fi, buildExplanation cfg results = .error ⟨.shapeMismatch, fi, none⟩) := by
  refine ⟨?_, ?_, ?_⟩
  · intro cfg X p s expl hok jf hjf arr harr
    obtain ⟨_, results, _, hbuild⟩ := explain_ok_elim cfg X p s expl hok
    obtain ⟨hlen, _, hfv, hav⟩ := buildExplanation_ok_elim cfg results expl hbuild
    have hjr : jf < results.length := by
      rw [hfv, List.length_map] at hjf
      exact hjf
    rw [hav, getD_map (fun r => targetColumns cfg.numTargets r.centered) dummyFR []
      results jf hjr] at harr
    unfold targetColumns at harr
    rcases List.mem_map.mp harr with ⟨t, _, harr'⟩
    subst harr'
    rw [List.length_map, hfv,
      getD_map (fun r => r.edges) dummyFR [] results jf hjr,
      hlen (results.getD jf dummyFR) (getD_mem results dummyFR jf hjr)]
  · intro cfg results expl hbuild
    exact (buildExplanation_ok_elim cfg results expl hbuild).1
  · intro cfg results h
    exact buildExplanation_mismatch cfg results h

/-- Witness for claim C5: a concrete length match on a returned Explanation
and a concrete builder rejection of a mismatched feature result. -/
theorem explanation_shape_invariant_witness :
    (([-41/5, -31/5, -21/5, -11/5, -1/5, 9/5, 19/5, 29/5, 39/5, 49/5] : List ℚ).length =
      ([0, 1, 2, 3, 4, 5, 6, 7, 8, 9] : List ℚ).length) ∧
    (∃ fi, buildExplanation cfg4 [⟨0, [0, 1], [[0]], [], false⟩] =
      .error ⟨.shapeMismatch, fi, none⟩) :=
  ⟨explanation_shape_invariant.1 cfg9 X9 (linPred w9) none E9
      (by with_unfolding_all decide) 0 (by decide) _ (by with_unfolding_all decide),
    explanation_shape_invariant.2.2 cfg4 [⟨0, [0, 1], [[0]], [], false⟩]
      (by decide)⟩

/-! ### Claim C6 -/

/-- Claim C6: when the selected feature column has fewer than 2 distinct
values (in particular a constant column), explain signals a
DegenerateFeatureError carrying that feature's index and produces no
Explanation. -/
theorem degenerate_feature_error (cfg : AleConfig) (X : Mat) (p : Predictor) (i : Nat)
    (hin : i < cfg.numFeatures)
    (hwidth : X.all (fun r => r.length == cfg.numFeatures) = true)
    (hdeg : (column X i).dedup.length < 2) :
    explain cfg X p (some [i]) = .error ⟨.degenerateFeature, i, none⟩ ∧
    ∀ expl, explain cfg X p (some [i]) ≠ .ok expl := by
  have hb : bins i (column X i) cfg.resolution = .error ⟨.degenerateFeature, i, none⟩ := by
    unfold bins
    rw [if_pos hdeg]
  have hef : explainFeature cfg X p i = .error ⟨.degenerateFeature, i, none⟩ := by
    unfold explainFeature
    rw [if_pos hin, hb]
  have hmain : explain cfg X p (some [i]) = .error ⟨.degenerateFeature, i, none⟩ := by
    unfold explain
    rw [if_pos hwidth]
    have hcoll : collectExcept (explainFeature cfg X p)
        ((some [i]).getD (List.range cfg.numFeatures)) =
        .error ⟨.degenerateFeature, i, none⟩ := by
      show collectExcept (explainFeature cfg X p) [i] = _
      simp only [collectExcept, hef]
    rw [hcoll]
  refine ⟨hmain, ?_⟩
  intro expl hcon
  rw [hmain] at hcon
  simp at hcon

/-- Witness for claim C6: a constant column raises DegenerateFeatureError
naming feature 0. -/
theorem degenerate_feature_error_witness :
    explain cfg4 [[5], [5], [5]] (linPred w4) (some [0]) =
      .error ⟨.degenerateFeature, 0, none⟩ :=
  (degenerate_feature_error cfg4 [[5], [5], [5]] (linPred w4) 0 (by decide) (by decide)
    (by with_unfolding_all decide)).1

/-! ### Claim C8 -/

/-- Claim C8: every instance value in the edge range is assigned to exactly
one bin k with edges[k] ≤ x ≤ edges[k+1] — on-edge values go to the
lower-indexed bin and the final bin is closed at both ends, which the unique
characterization in the fifth conjunct captures; bins with zero assigned
instances contribute a zero local effect with no division by zero, and the
local-effects output still has exactly K rows. -/
theorem bin_assignment_spec (edges : List ℚ) (x : ℚ) (hE : edges.Sorted (· < ·))
    (hK : 1 ≤ edges.length - 1) (hx0 : edges.getD 0 0 ≤ x)
    (hxK : x ≤ edges.getD (edges.length - 1) 0) :
    binIndex edges x < edges.length - 1 ∧
    edges.getD (binIndex edges x) 0 ≤ x ∧
    x ≤ edges.getD (binIndex edges x + 1) 0 ∧
    (∀ j, 1 ≤ j → j ≤ edges.length - 1 → x = edges.getD j 0 →
      binIndex edges x = j - 1) ∧
    (∀ k, k < edges.length - 1 → (binIndex edges x = k ↔
      ((k = 0 ∨ edges.getD k 0 < x) ∧ x ≤ edges.getD (k + 1) 0))) ∧
    (∀ (X : Mat) (i : Nat) (p : Predictor) (m k : Nat),
      instancesInBin X i edges k = [] →
      localEffectBin X i edges p m k = .ok (List.replicate m 0)) ∧
    (∀ (X : Mat) (i : Nat) (p : Predictor) (m : Nat) (le : Mat),
      localEffects X i edges p m = .ok le → le.length = edges.length - 1) := by
  have hblt := binIndex_lt edges x hE hK hxK
  refine ⟨hblt, binIndex_lower edges x hE hx0, binIndex_upper edges x hE hblt,
    ?_, fun k hk => binIndex_iff edges x k hE hk,
    fun X i p m k h => localEffectBin_empty X i edges p m k h,
    fun X i p m le h => localEffects_ok_length X i edges p m le h⟩
  intro j hj1 hjK hxj
  rw [hxj]
  exact binIndex_eq_edge edges hE j hj1 hjK

/-- Witness for claim C8: with edges 0, 1, 3 the on-edge value 1 goes to the
lower bin 0, and an empty bin produces the zero local effect. -/
theorem bin_assignment_spec_witness :
    binIndex ([0, 1, 3] : List ℚ) 1 = 1 - 1 ∧
    localEffectBin [[2]] 0 ([0, 1, 3] : List ℚ) (linPred w9) 1 0 =
      .ok (List.replicate 1 0) :=
  ⟨(bin_assignment_spec ([0, 1, 3] : List ℚ) 1 (by with_unfolding_all decide)
      (by decide) (by with_unfolding_all decide) (by with_unfolding_all decide)).2.2.2.1
      1 (by decide) (by decide) (by with_unfolding_all decide),
    (bin_assignment_spec ([0, 1, 3] : List ℚ) 1 (by with_unfolding_all decide)
      (by decide) (by with_unfolding_all decide) (by with_unfolding_all decide)).2.2.2.2.2.1
      [[2]] 0 (linPred w9) 1 0 (by with_unfolding_all decide)⟩

/-! ### Claim C10 -/

/-- Claim C10: a predictor returning a one-dimensional vector of length n'
for an n'-row batch (the shape of scikit-learn regressors' predict) is
accepted as a single-target predictor: the shape check of the local-effect
estimator never raises PredictorError for it, and a successful explain
returns exactly one ale_values array per feature. -/
theorem vector_predictor_accepted (q : Mat → List ℚ)
    (hq : ∀ b, (q b).length = b.length) :
    (∀ (X : Mat) (i : Nat) (edges : List ℚ) (k : Nat),
      ∃ v, localEffectBin X i edges (vecPred q) 1 k = .ok v) ∧
    (∀ (cfg : AleConfig) (X : Mat) (s : Option (List Nat)) (expl : Explanation),
      cfg.numTargets = 1 → explain cfg X (vecPred q) s = .ok expl →
      ∀ a ∈ expl.aleValues, a.length = 1) := by
  constructor
  · intro X i edges k
    by_cases hemp : instancesInBin X i edges k = []
    · exact ⟨_, localEffectBin_empty X i edges _ 1 k hemp⟩
    · simp only [localEffectBin]
      rw [if_neg (fun hcon => hemp (List.isEmpty_iff.mp hcon))]
      set rows := instancesInBin X i edges k with hrows
      set batch := rows.map (fun r => clampRow r i (edges.getD k 0)) ++
        rows.map (fun r => clampRow r i (edges.getD (k + 1) 0)) with hbatch
      have hcond : ((vecPred q batch).toMatrix).length = rows.length + rows.length ∧
          ∀ row ∈ (vecPred q batch).toMatrix, row.length = 1 := by
        constructor
        · show ((q batch).map (fun y => [y])).length = _
          rw [List.length_map, hq batch, hbatch, List.length_append,
            List.length_map, List.length_map]
        · intro row hrow
          rcases List.mem_map.mp hrow with ⟨y, _, hy⟩
          rw [← hy]
          rfl
      rw [if_pos hcond]
      exact ⟨_, rfl⟩
  · intro cfg X s expl hm hok a ha
    obtain ⟨_, results, _, hbuild⟩ := explain_ok_elim cfg X (vecPred q) s expl hok
    obtain ⟨_, _, _, hav⟩ := buildExplanation_ok_elim cfg results expl hbuild
    rw [hav] at ha
    rcases List.mem_map.mp ha with ⟨r, _, hra⟩
    rw [← hra]
    unfold targetColumns
    rw [List.length_map, List.length_range, hm]

/-- A concrete one-dimensional predictor computing 2 x for each row, as a
scikit-learn regressor's predict would. -/
def qv : Mat → List ℚ := fun b => b.map (fun r => 2 * r.getD 0 0)

/-- Witness for claim C10: the vector predictor is accepted end to end on the
0..9 column and yields one ale_values array for the single feature. -/
theorem vector_predictor_accepted_witness :
    (∃ v, localEffectBin X9 0 ([0, 1, 2, 3, 4, 5, 6, 7, 8, 9] : List ℚ)
      (vecPred qv) 1 0 = .ok v) ∧
    ([[(-41 : ℚ)/5, -31/5, -21/5, -11/5, -1/5, 9/5, 19/5, 29/5, 39/5, 49/5]] : Mat).length = 1 :=
  ⟨(vector_predictor_accepted qv (fun b => List.length_map b _)).1 X9 0 _ 0,
    (vector_predictor_accepted qv (fun b => List.length_map b _)).2 cfg9 X9 none E9
      rfl (by with_unfolding_all decide) _ (by with_unfolding_all decide)⟩

/-! ### Claim C7 -/

theorem explainFeature_config_eq (X : Mat) (p : Predictor) (cfg cfg' : AleConfig)
    (hr : cfg.resolution = cfg'.resolution) (ht : cfg.numTargets = cfg'.numTargets)
    (hf : cfg.numFeatures = cfg'.numFeatures) :
    explainFeature cfg X p = explainFeature cfg' X p := by
  funext i
  unfold explainFeature
  rw [hr, ht, hf]

theorem buildExplanation_strip (cfg cfg' : AleConfig)
    (ht : cfg.numTargets = cfg'.numTargets) (results : List FeatureResult) :
    Except.map stripLowDensity (buildExplanation cfg results) =
    Except.map stripLowDensity (buildExplanation cfg' results) := by
  unfold buildExplanation
  by_cases hc : results.all (fun r => r.edges.length == r.centered.length) = true
  · rw [if_pos hc, if_pos hc]
    rw [ht]
    rfl
  · rw [if_neg hc, if_neg hc]

/-- Claim C7: explain is fail-fast and atomic on error.  First conjunct: if
every feature before position j succeeds and feature j fails with error e,
the whole call returns exactly e (no partial Explanation).  Second conjunct:
every per-feature error — degenerate, invalid, predictor or shape — carries
the offending feature index.  Third conjunct: a successful call contains all
requested features and implies every per-feature pipeline succeeded (no error
was downgraded to a warning).  Fourth conjunct: the low-density warning flag
never affects the outcome — errors and numeric payload are identical with the
warning collection on or off, only the warning annotations differ. -/
theorem fail_fast_policy :
    (∀ (cfg : AleConfig) (X : Mat) (p : Predictor) (feats : List Nat) (j : Nat)
      (e : AleError),
      X.all (fun r => r.length == cfg.numFeatures) = true →
      j < feats.length →
      (List.range j).all (fun j' => isOkE (explainFeature cfg X p (feats.getD j' 0))) = true →
      explainFeature cfg X p (feats.getD j 0) = .error e →
      explain cfg X p (some feats) = .error e) ∧
    (∀ (cfg : AleConfig) (X : Mat) (p : Predictor) (i : Nat) (e : AleError),
      explainFeature cfg X p i = .error e → e.feature = i) ∧
    (∀ (cfg : AleConfig) (X : Mat) (p : Predictor) (s : Option (List Nat))
      (expl : Explanation), explain cfg X p s = .ok expl →
      expl.features = s.getD (List.range cfg.numFeatures) ∧
      ∀ j ∈ s.getD (List.range cfg.numFeatures),
        isOkE (explainFeature cfg X p j) = true) ∧
    (∀ (cfg : AleConfig) (X : Mat) (p : Predictor) (s : Option (List Nat)) (b : Bool),
      Except.map stripLowDensity (explain cfg X p s) =
      Except.map stripLowDensity
        (explain ⟨cfg.resolution, cfg.numTargets, cfg.numFeatures, b⟩ X p s)) := by
  refine ⟨?_, ?_, ?_, ?_⟩
  · intro cfg X p feats j e hwidth hj hpre herr
    unfold explain
    rw [if_pos hwidth]
    have hpre' : ∀ j', j' < j →
        isOkE (explainFeature cfg X p (feats.getD j' 0)) = true := by
      intro j' hj'
      exact List.all_eq_true.mp hpre j' (List.mem_range.mpr hj')
    have hcoll := collectExcept_error_at (explainFeature cfg X p) 0 feats j e hj hpre' herr
    have hgd : (some feats).getD (List.range cfg.numFeatures) = feats := rfl
    rw [hgd, hcoll]
  · exact fun cfg X p i e h => explainFeature_error_feature cfg X p i e h
  · intro cfg X p s expl hok
    obtain ⟨_, results, hcoll, hbuild⟩ := explain_ok_elim cfg X p s expl hok
    obtain ⟨_, hfeat, _, _⟩ := buildExplanation_ok_elim cfg results expl hbuild
    obtain ⟨hlen, hnth⟩ :=
      collectExcept_ok_elim (explainFeature cfg X p) 0 dummyFR _ results hcoll
    constructor
    · rw [hfeat]
      apply List.ext_getElem
      · rw [List.length_map, hlen]
      · intro n h1 h2
        rw [List.length_map, hlen] at h1
        have hok' := hnth n h1
        obtain ⟨_, _, _, _, _, hr⟩ := explainFeature_ok_elim cfg X p _ _ hok'
        have : ((results.map (fun r => r.feature)).getD n 0) =
            ((s.getD (List.range cfg.numFeatures)).getD n 0) := by
          rw [getD_map (fun r => r.feature) dummyFR 0 results n (by omega), hr]
        rw [← List.getD_eq_getElem _ 0, ← List.getD_eq_getElem _ 0]
        exact this
    · intro j hjmem
      rcases List.mem_iff_getElem.mp hjmem with ⟨n, hn, hj⟩
      have hok' := hnth n hn
      rw [List.getD_eq_getElem _ 0 hn, hj] at hok'
      rw [hok']
      rfl
  · intro cfg X p s b
    have hfe : explainFeature (⟨cfg.resolution, cfg.numTargets, cfg.numFeatures, b⟩ :
        AleConfig) X p = explainFeature cfg X p :=
      explainFeature_config_eq X p _ cfg rfl rfl rfl
    unfold explain
    simp only []
    rw [hfe]
    by_cases hall : X.all (fun r => r.length == cfg.numFeatures) = true
    · rw [if_pos hall, if_pos hall]
      rcases hc : collectExcept (explainFeature cfg X p)
        (s.getD (List.range cfg.numFeatures)) with e | results
      · rfl
      · exact buildExplanation_strip cfg
          ⟨cfg.resolution, cfg.numTargets, cfg.numFeatures, b⟩ rfl results
    · rw [if_neg hall, if_neg hall]

/-- Configuration of the two-feature fail-fast scenario. -/
def cfg7 : AleConfig := ⟨4, 1, 2, true⟩

/-- Two-feature input whose second column is constant. -/
def X7 : Mat := [[1, 5], [2, 5]]

/-- Weights of the two-feature linear predictor. -/
def w7 : List ℚ := [1, 1]

/-- Witness for claim C7: feature 0 succeeds, feature 1 is degenerate, and
the whole call aborts with feature 1's error. -/
theorem fail_fast_policy_witness :
    explain cfg7 X7 (linPred w7) (some [0, 1]) =
      .error ⟨.degenerateFeature, 1, none⟩ :=
  fail_fast_policy.1 cfg7 X7 (linPred w7) [0, 1] 1 ⟨.degenerateFeature, 1, none⟩
    (by decide) (by decide) (by with_unfolding_all decide)
    (by with_unfolding_all decide)

/-! ### Linear-predictor lemmas -/

theorem dot_set_sub : ∀ (w r : List ℚ) (i : Nat), i < r.length → i < w.length →
    ∀ a b : ℚ, dot w (r.set i a) - dot w (r.set i b) = w.getD i 0 * (a - b)
  | u :: w, _ :: r, 0, _, _, a, b => by
    show (u * a + dot w r) - (u * b + dot w r) = u * (a - b)
    ring
  | u :: w, x :: r, i + 1, hr, hw, a, b => by
    show (u * x + dot w (r.set i a)) - (u * x + dot w (r.set i b)) =
      w.getD i 0 * (a - b)
    rw [← dot_set_sub w r i (Nat.lt_of_succ_lt_succ hr) (Nat.lt_of_succ_lt_succ hw) a b]
    ring
  | _, [], _, hr, _, _, _ => absurd hr (by simp)
  | [], _ :: _, _, _, hw, _, _ => absurd hw (by simp)

theorem localEffectBin_linear (w : List ℚ) (X : Mat) (i : Nat) (E : List ℚ) (k : Nat)
    (hwidth : ∀ r ∈ X, r.length = w.length) (hi : i < w.length)
    (hne : instancesInBin X i E k ≠ []) :
    localEffectBin X i E (linPred w) 1 k =
      .ok [w.getD i 0 * (E.getD (k + 1) 0 - E.getD k 0)] := by
  simp only [localEffectBin]
  rw [if_neg (fun hcon => hne (List.isEmpty_iff.mp hcon))]
  set rows := instancesInBin X i E k with hrowsdef
  set lo := fun r => clampRow r i (E.getD k 0) with hlodef
  set hi2 := fun r => clampRow r i (E.getD (k + 1) 0) with hhidef
  have hout : (linPred w (rows.map lo ++ rows.map hi2)).toMatrix =
      rows.map (fun r => [dot w (lo r)]) ++ rows.map (fun r => [dot w (hi2 r)]) := by
    show ((rows.map lo ++ rows.map hi2).map (fun r => [dot w r])) = _
    rw [List.map_append, List.map_map, List.map_map]
    rfl
  have hcond : ((linPred w (rows.map lo ++ rows.map hi2)).toMatrix).length =
      rows.length + rows.length ∧
      ∀ row ∈ (linPred w (rows.map lo ++ rows.map hi2)).toMatrix, row.length = 1 := by
    constructor
    · rw [hout, List.length_append, List.length_map, List.length_map]
    · intro row hrow
      rw [hout] at hrow
      rcases List.mem_append.mp hrow with h | h <;>
        (rcases List.mem_map.mp h with ⟨r, _, hr⟩; rw [← hr]; rfl)
  rw [if_pos hcond]
  congr 1
  have hlenlo : (rows.map (fun r => [dot w (lo r)])).length = rows.length :=
    List.length_map _ _
  have htake : ((linPred w (rows.map lo ++ rows.map hi2)).toMatrix).take rows.length =
      rows.map (fun r => [dot w (lo r)]) := by
    rw [hout, ← hlenlo, List.take_left]
  have hdrop : ((linPred w (rows.map lo ++ rows.map hi2)).toMatrix).drop rows.length =
      rows.map (fun r => [dot w (hi2 r)]) := by
    rw [hout, ← hlenlo, List.drop_left]
  rw [htake, hdrop, zipWith_map_same]
  have hconst : rows.map (fun r => vsub [dot w (hi2 r)] [dot w (lo r)]) =
      rows.map (fun _ => [w.getD i 0 * (E.getD (k + 1) 0 - E.getD k 0)]) := by
    apply List.map_congr_left
    intro r hr
    have hrX : r ∈ X := List.mem_filter.mp (hrowsdef ▸ hr) |>.1
    have hlen : i < r.length := by
      rw [hwidth r hrX]
      exact hi
    show [dot w (hi2 r) - dot w (lo r)] = _
    rw [hhidef, hlodef]
    show [dot w (r.set i (E.getD (k + 1) 0)) - dot w (r.set i (E.getD k 0))] = _
    rw [dot_set_sub w r i hlen hi]
  rw [hconst,
    msum_const 1 rows [w.getD i 0 * (E.getD (k + 1) 0 - E.getD k 0)] rfl, vscale_vscale]
  have hn : (rows.length : ℚ) ≠ 0 := by
    have : rows.length ≠ 0 := fun hz => hne (List.length_eq_zero.mp hz)
    exact_mod_cast this
  rw [one_div_mul_cancel hn, vscale_one]

theorem instancesInBin_ne_nil (X : Mat) (i : Nat) (res : Nat) (hres : 1 ≤ res)
    (hdedup : 2 ≤ (column X i).dedup.length) (k : Nat)
    (hk : k < (quantileEdges (column X i) res).length - 1) :
    instancesInBin X i (quantileEdges (column X i) res) k ≠ [] := by
  set vals := column X i with hvalsdef
  set E := quantileEdges vals res with hEdef
  have hnn : vals ≠ [] := by
    intro hnil
    rw [hnil] at hdedup
    simp at hdedup
  have hE : E.Sorted (· < ·) := quantileEdges_sorted vals res hnn hres
  have hk1lt : k + 1 < E.length := by omega
  have hmem : E.getD (k + 1) 0 ∈ vals :=
    mem_quantileEdges vals res hnn hres _ (getD_mem E 0 (k + 1) hk1lt)
  rcases List.mem_map.mp hmem with ⟨r, hr, hval⟩
  have hbieq := binIndex_eq_edge E hE (k + 1) (Nat.succ_pos k) (by omega)
  have hbi : binIndex E (r.getD i 0) = k := by
    rw [hval, hbieq]
    omega
  intro hnil
  have hmem2 : r ∈ instancesInBin X i E k :=
    List.mem_filter.mpr ⟨hr, decide_eq_true hbi⟩
  rw [hnil] at hmem2
  simp at hmem2

theorem accumulate_telescope (wi : ℚ) (E : List ℚ) :
    ∀ k, k ≤ E.length - 1 →
      (accumulate 1 ((List.range (E.length - 1)).map
        (fun j => [wi * (E.getD (j + 1) 0 - E.getD j 0)]))).getD k [] =
        [wi * (E.getD k 0 - E.getD 0 0)] := by
  set L := (List.range (E.length - 1)).map
    (fun j => [wi * (E.getD (j + 1) 0 - E.getD j 0)]) with hLdef
  intro k
  induction k with
  | zero =>
    intro _
    rw [show (accumulate 1 L).getD 0 [] = List.replicate 1 0 from accumFrom_getD_zero L _]
    have hz : wi * (E.getD 0 0 - E.getD 0 0) = 0 := by ring
    rw [hz]
    rfl
  | succ k ih =>
    intro hk1
    have hkL : k < L.length := by
      rw [hLdef, List.length_map, List.length_range]
      omega
    rw [show (accumulate 1 L).getD (k + 1) [] =
        vadd ((accumulate 1 L).getD k []) (L.getD k []) from
      accumFrom_getD_succ L _ k hkL]
    rw [ih (by omega)]
    have hLk : L.getD k [] = [wi * (E.getD (k + 1) 0 - E.getD k 0)] := by
      rw [hLdef, getD_map _ 0 [] _ k (by rw [List.length_range]; omega),
        getD_range _ k (by omega)]
    rw [hLk]
    show [wi * (E.getD k 0 - E.getD 0 0) + wi * (E.getD (k + 1) 0 - E.getD k 0)] = _
    have : wi * (E.getD k 0 - E.getD 0 0) + wi * (E.getD (k + 1) 0 - E.getD k 0) =
        wi * (E.getD (k + 1) 0 - E.getD 0 0) := by ring
    rw [this]

/-! ### Claim C2 (amended) -/

/-- Claim C2 (amended): for a linear predictor f(x) = w · x and any dataset,
the returned ale_values are affine in the bin edges with slope w_i:
ale[k] − ale[0] = w_i (fv[k] − fv[0]) for every k, hence the notebook slope
(ale[-1] − ale[0]) / (fv[-1] − fv[0]) equals the coefficient w_i for every
feature.  The intercept is w_i times the bin-weighted trapezoidal-midpoint
mean, which in general differs from w_i · mean(feature_i). -/
theorem explain_linear_affine (cfg : AleConfig) (X : Mat) (w : List ℚ)
    (s : Option (List Nat)) (expl : Explanation)
    (hm : cfg.numTargets = 1) (hw : w.length = cfg.numFeatures)
    (hres : 1 ≤ cfg.resolution)
    (hok : explain cfg X (linPred w) s = .ok expl) :
    ∀ jf, jf < expl.features.length →
      ∀ k, k < (expl.featureValues.getD jf []).length →
        ((expl.aleValues.getD jf []).getD 0 []).getD k 0 -
          ((expl.aleValues.getD jf []).getD 0 []).getD 0 0 =
        w.getD (expl.features.getD jf 0) 0 *
          ((expl.featureValues.getD jf []).getD k 0 -
            (expl.featureValues.getD jf []).getD 0 0) := by
  intro jf hjf k hk
  obtain ⟨hall, _, _, _⟩ := explain_ok_elim cfg X (linPred w) s expl hok
  obtain ⟨edges, le, hin, hb, hle, hfv, hav⟩ :=
    explain_ok_feature_elim cfg X (linPred w) s expl hok jf hjf
  set i := expl.features.getD jf 0 with hidef
  obtain ⟨hdedup, hEdef⟩ := bins_ok_elim i _ _ _ hb
  have hwidth : ∀ r ∈ X, r.length = w.length := by
    intro r hr
    have := List.all_eq_true.mp hall r hr
    rw [hw]
    simpa using this
  have hiw : i < w.length := by
    rw [hw]
    exact hin
  have hKpos : 1 ≤ edges.length := by
    rw [hEdef]
    exact Nat.succ_le_of_lt (List.length_pos.mpr (quantileEdges_ne_nil _ _))
  have hne : ∀ k', k' < edges.length - 1 → instancesInBin X i edges k' ≠ [] := by
    intro k' hk'
    rw [hEdef]
    rw [hEdef] at hk'
    exact instancesInBin_ne_nil X i cfg.resolution hres hdedup k' hk'
  rw [hm] at hle hav
  have hleq : le = (List.range (edges.length - 1)).map
      (fun j => [w.getD i 0 * (edges.getD (j + 1) 0 - edges.getD j 0)]) := by
    have hcoll : localEffects X i edges (linPred w) 1 =
        .ok ((List.range (edges.length - 1)).map
          (fun j => [w.getD i 0 * (edges.getD (j + 1) 0 - edges.getD j 0)])) := by
      apply collectExcept_map_ok
      intro k' hk'
      have hk'lt := List.mem_range.mp hk'
      exact localEffectBin_linear w X i edges k' hwidth hiw (hne k' hk'lt)
    rw [hle] at hcoll
    exact Except.ok.inj hcoll
  have hlen_le : le.length = edges.length - 1 := by
    rw [hleq, List.length_map, List.length_range]
  have hlen_ale : (accumulate 1 le).length = edges.length := by
    rw [show (accumulate 1 le).length = le.length + 1 from accumFrom_length le _, hlen_le]
    omega
  have hrows : ∀ r ∈ accumulate 1 le, r.length = 1 := by
    apply accumFrom_rows_length 1 le _ (List.length_replicate _ _)
    rw [hleq]
    intro r hr
    rcases List.mem_map.mp hr with ⟨j, _, hj⟩
    rw [← hj]
    rfl
  set ale := accumulate 1 le with haledef
  set bw := binWeights X i edges with hbwdef
  have harr : (expl.aleValues.getD jf []).getD 0 [] =
      (center ale bw 1).map (fun r => r.getD 0 0) := by
    rw [hav]
    rfl
  have hcent : ∀ k', k' < edges.length →
      ((center ale bw 1).map (fun r => r.getD 0 0)).getD k' 0 =
        w.getD i 0 * (edges.getD k' 0 - edges.getD 0 0) -
          (trapMean ale bw 1).getD 0 0 := by
    intro k' hk'
    rw [getD_map (fun r => r.getD 0 0) [] 0 (center ale bw 1) k'
      (by rw [length_center, hlen_ale]; exact hk')]
    have hck : (center ale bw 1).getD k' [] =
        vsub (ale.getD k' []) (trapMean ale bw 1) := by
      unfold center
      exact getD_map _ [] [] ale k' (by rw [hlen_ale]; exact hk')
    rw [hck, getD_vsub _ _ 0
      (by rw [hrows _ (getD_mem ale [] k' (by rw [hlen_ale]; exact hk'))]; omega)
      (by rw [trapMean_length ale bw 1 hrows]; omega)]
    have htel : ale.getD k' [] = [w.getD i 0 * (edges.getD k' 0 - edges.getD 0 0)] := by
      rw [haledef, hleq]
      exact accumulate_telescope (w.getD i 0) edges k' (by omega)
    rw [htel, List.getD_cons_zero]
  rw [hfv] at hk
  rw [harr, hfv, hcent k hk, hcent 0 (by omega)]
  ring

/-- Witness for claim C2: in the small linear scenario the slope relation
holds at the last edge, ale[3] − ale[0] = 3 · (3 − 0). -/
theorem explain_linear_affine_witness :
    ((21/4 : ℚ) - (-15/4)) = w4.getD 0 0 * ((3 : ℚ) - 0) :=
  explain_linear_affine cfg4 X4 w4 none
    ⟨[0], [[0, 1, 2, 3]], [[[-15/4, -3/4, 9/4, 21/4]]],
      [[0, 0, 1, 1, 1, 2, 2, 3, 3, 3]], []⟩
    rfl rfl (by decide) (by with_unfolding_all decide) 0 (by decide) 3 (by decide)

/-- Counterexample to claim C2 as stated: for the linear predictor f(x) = 3x
on the column 0..3, the engine returns first ale value -15/4, while
w_i · feature_value − w_i · mean(feature) would be -9/2; the gap 3/4 far
exceeds any floating tolerance, so ale_values does not equal
w_i · feature_values − w_i · mean(feature_i). -/
theorem explain_linear_mean_counterexample :
    explain cfg4 X4 (linPred w4) none =
      .ok ⟨[0], [[0, 1, 2, 3]], [[[-15/4, -3/4, 9/4, 21/4]]],
        [[0, 0, 1, 1, 1, 2, 2, 3, 3, 3]], []⟩ ∧
    w4.getD 0 0 * (0 : ℚ) - w4.getD 0 0 * columnMean X4 0 = -9/2 ∧
    (-15/4 : ℚ) - (-9/2) = 3/4 ∧
    ¬ |(-15/4 : ℚ) - (-9/2)| < 1/1000000000 := by
  refine ⟨by with_unfolding_all decide, by with_unfolding_all decide, by norm_num, ?_⟩
  rw [show |(-15/4 : ℚ) - (-9/2)| = 3/4 by rw [abs_eq_self.mpr (by norm_num)]; norm_num]
  norm_num

/-! ### Claim C9 (corrected) -/

/-- Counterexample to claim C9 as stated: on X = 0..9 with resolution 10 and
predictor 2x the engine does return edges 0..9, but the centered curve is
2x − 41/5, not 2x − 9: its first value is -41/5, which differs from the
claimed -9 by 4/5, far beyond floating tolerance. -/
theorem end_to_end_counterexample :
    explain cfg9 X9 (linPred w9) none = .ok E9 ∧
    E9.featureValues.getD 0 [] = [0, 1, 2, 3, 4, 5, 6, 7, 8, 9] ∧
    (E9.aleValues.getD 0 []).getD 0 [] ≠
      (E9.featureValues.getD 0 []).map (fun x => 2 * x - 9) ∧
    ((E9.aleValues.getD 0 []).getD 0 []).getD 0 0 - (2 * (0 : ℚ) - 9) = 4/5 ∧
    ¬ |(-41/5 : ℚ) - (-9)| < 1/1000000000 := by
  refine ⟨by with_unfolding_all decide, by with_unfolding_all decide,
    by with_unfolding_all decide, by with_unfolding_all decide, ?_⟩
  rw [show |(-41/5 : ℚ) - (-9)| = 4/5 by rw [abs_eq_self.mpr (by norm_num)]; norm_num]
  norm_num

/-- Claim C9 (amended): for X = the single feature column 0..9 with
resolution 10 and predictor 2x, explain returns feature_values equal to the
edges 0..9 and ale_values equal to 2x − 41/5 — the values -41/5, -31/5, ...,
49/5 in steps of 2 with bin-weighted trapezoidal mean zero (the offset is the
weighted trapezoidal-midpoint mean 41/5, not 2 · mean(x) = 9). -/
theorem end_to_end_amended :
    explain cfg9 X9 (linPred w9) none = .ok E9 ∧
    E9.featureValues = [[0, 1, 2, 3, 4, 5, 6, 7, 8, 9]] ∧
    E9.aleValues =
      [[[-41/5, -31/5, -21/5, -11/5, -1/5, 9/5, 19/5, 29/5, 39/5, 49/5]]] ∧
    List.zipWith (· - ·) ((E9.aleValues.getD 0 []).getD 0 []).tail
      ((E9.aleValues.getD 0 []).getD 0 []) = List.replicate 9 2 ∧
    weightedTrapMean (binWeights X9 0 (E9.featureValues.getD 0 []))
      ((E9.aleValues.getD 0 []).getD 0 []) = 0 := by
  refine ⟨by with_unfolding_all decide, by with_unfolding_all decide,
    by with_unfolding_all decide, by with_unfolding_all decide,
    by with_unfolding_all decide⟩

end AleSpec
